import Mathlib

/-!
A verification development for the Chessir chess rules engine.

The Python sources `game.py` and `square_attacked.py` are translated into
executable Lean definitions.  The board container (`board.py`) and the move
geometry tables (`moves.py`) are not part of the provided sources; they are
modelled from the specification (sections 4.1 and 4.2 of the design
document), as noted on each such definition.
-/

set_option maxRecDepth 10000

namespace Chessir

/-- Status codes from the `Game` class. -/
def NORMAL : Nat := 0

/-- Status code CHECK. -/
def CHECK : Nat := 1

/-- Status code CHECKMATE. -/
def CHECKMATE : Nat := 2

/-- Status code STALEMATE. -/
def STALEMATE : Nat := 3

/-- Status code DRAW. -/
def DRAW : Nat := 4

/-- File letter of a square index: `chr(97 + idx % 8)` for `idx % 8` in 0..7. -/
def fileChar (n : Nat) : Char :=
  match n with
  | 0 => 'a' | 1 => 'b' | 2 => 'c' | 3 => 'd'
  | 4 => 'e' | 5 => 'f' | 6 => 'g' | _ => 'h'

/-- Rank digit of a square index: `str(8 - idx // 8)` for `idx // 8` in 0..7.
For rows outside 0..7 (never produced by the engine's board indices) the
result is the digit `0`. -/
def rankChar (n : Nat) : Char :=
  match n with
  | 0 => '8' | 1 => '7' | 2 => '6' | 3 => '5'
  | 4 => '4' | 5 => '3' | 6 => '2' | 7 => '1'
  | _ => '0'

/-- `Game.i2xy`: board index to algebraic notation, for indices 0..63. -/
def i2xy (idx : Nat) : String :=
  String.mk [fileChar (idx % 8), rankChar (idx / 8)]

/-- `Game.xy2i`: algebraic notation to board index,
`(8 - int(pos[1])) * 8 + (ord(pos[0]) - ord('a'))`.  The Python original
raises for a non-digit rank character and can return negative values for
coordinates off the board; this translation clamps such values to `Nat`,
and is faithful on well-formed coordinates (files a..h, ranks 1..8). -/
def xy2i (pos : String) : Nat :=
  let l := pos.toList
  let f : Int := (l.getD 0 'a').toNat
  let r : Int := (l.getD 1 '0').toNat
  ((8 - (r - 48)) * 8 + (f - 97)).toNat

/-- `abs(a - b)` on board indices. -/
def absDiff (a b : Nat) : Nat := max a b - min a b

/-- Well-formed coordinate pair: file a..h, rank 1..8. -/
def coordOK (f r : Char) : Bool :=
  ('a' ≤ f && f ≤ 'h') && ('1' ≤ r && r ≤ '8')

/-! ## Board container

Modelled from the spec: `board.py` is not among the provided sources.
Section 4.2 of the design document describes the board as a length-64
mutable array of single-character piece symbols with operations
`get_piece`, `get_owner`, `move_piece`, `find_piece`, `set_position` and a
FEN-field serialisation.  We represent the array as a `List Char`. -/

/-- The board: 64 piece symbols, index 0 = a8, index 63 = h1. -/
abbrev Board := List Char

/-- Modelled from the spec: `Board.get_piece(i)` returns the symbol at
square `i` (total; a space denotes an empty square). -/
def get_piece (b : Board) (i : Nat) : Char := b.getD i ' '

/-- Modelled from the spec: `Board.get_owner(i)` is `"w"` for an uppercase
symbol, `"b"` for a lowercase one, and empty (here `none`) for a space. -/
def get_owner (b : Board) (i : Nat) : Option String :=
  let p := get_piece b i
  if p.isUpper then some "w" else if p.isLower then some "b" else none

/-- Modelled from the spec: `Board.move_piece(from, to, sym)` places `sym`
at `to` and a space at `from`; when `from = to` it simply assigns `sym`. -/
def move_piece (b : Board) (src dst : Nat) (sym : Char) : Board :=
  if src = dst then b.set dst sym else (b.set dst sym).set src ' '

/-- Modelled from the spec: `Board.find_piece(sym)` is the first index
holding `sym` (the caller guarantees existence; we return an `Option`). -/
def find_piece (b : Board) (sym : Char) : Option Nat :=
  b.findIdx? (· = sym)

/-- Modelled from the spec: expansion of one character of a FEN board
field: a digit yields that many empty squares, `/` separates ranks (and
contributes nothing to the 64 cells), a letter is placed verbatim. -/
def fenCellsOf (c : Char) : List Char :=
  if c = '/' then []
  else if '1' ≤ c ∧ c ≤ '8' then List.replicate (c.toNat - 48) ' '
  else [c]

/-- Modelled from the spec: `Board.set_position(field)` parses a FEN board
field into the 64 cells, replacing the previous contents entirely. -/
def set_position (field : String) : Board :=
  field.toList.flatMap fenCellsOf

/-- Run-length encoding of one rank for the FEN board field: runs of
spaces collapse into a digit, other symbols appear verbatim.  The `pending`
argument counts the empty squares seen since the last emitted symbol. -/
def encRank (pending : Nat) : List Char → List Char
  | [] => if pending = 0 then [] else [Char.ofNat (48 + pending)]
  | c :: rest =>
    if c = ' ' then encRank (pending + 1) rest
    else if pending = 0 then c :: encRank 0 rest
    else Char.ofNat (48 + pending) :: c :: encRank 0 rest

/-- Split a cell list into ranks of 8 and encode each. -/
def boardRanks : Nat → List Char → List (List Char)
  | 0, _ => []
  | n + 1, cells => encRank 0 (cells.take 8) :: boardRanks n (cells.drop 8)

/-- Interleave a separator between chunks. -/
def joinSep (sep : Char) : List (List Char) → List Char
  | [] => []
  | [x] => x
  | x :: y :: rest => x ++ sep :: joinSep sep (y :: rest)

/-- Modelled from the spec: serialisation of the board to the first FEN
field (8 ranks top to bottom, empty runs as digits, joined by `/`). -/
def boardFenChars (b : Board) : List Char :=
  joinSep '/' (boardRanks 8 b)

/-- The board's textual serialisation (`str(self.board)`). -/
def boardFen (b : Board) : String :=
  String.mk (boardFenChars b)

/-! ## Move geometry tables

Modelled from the spec: `moves.py` is not among the provided sources.
Section 4.1 of the design document describes `MOVES[piece][origin]` (rays
of geometrically possible destinations on an empty board, grouped by
direction and sorted by increasing distance) and
`RAYS_FROM_TARGET[side][attacker][target]` (rays outward from a target
square along which an opposing piece of the given type could strike). -/

/-- One geometric ray from `origin` in direction `(df, dr)` with at most
`len` steps, truncated at the board edge.  `df` is the file step, `dr` the
row step (row 0 = rank 8). -/
def ray (origin : Nat) (df dr : Int) (len : Nat) : List Nat :=
  let f : Int := origin % 8
  let r : Int := origin / 8
  (List.range len).filterMap (fun k =>
    let f2 := f + (k + 1 : Nat) * df
    let r2 := r + (k + 1 : Nat) * dr
    if 0 ≤ f2 ∧ f2 < 8 ∧ 0 ≤ r2 ∧ r2 < 8 then some (r2 * 8 + f2).toNat else none)

/-- The eight sliding directions of a queen or king. -/
def dirsAll : List (Int × Int) :=
  [(1, 0), (-1, 0), (0, 1), (0, -1), (1, 1), (1, -1), (-1, 1), (-1, -1)]

/-- The four orthogonal directions of a rook. -/
def dirsRook : List (Int × Int) := [(1, 0), (-1, 0), (0, 1), (0, -1)]

/-- The four diagonal directions of a bishop. -/
def dirsBishop : List (Int × Int) := [(1, 1), (1, -1), (-1, 1), (-1, -1)]

/-- The eight knight offsets. -/
def dirsKnight : List (Int × Int) :=
  [(1, 2), (2, 1), (2, -1), (1, -2), (-1, -2), (-2, -1), (-2, 1), (-1, 2)]

/-- Rays of a sliding or stepping piece from an origin: one ray per
direction, dropping directions that leave the board immediately. -/
def raysOf (origin : Nat) (dirs : List (Int × Int)) (len : Nat) : List (List Nat) :=
  (dirs.map (fun d => ray origin d.1 d.2 len)).filter (· ≠ [])

/-- Modelled from the spec: king entries of `MOVES`, with the castling
destination rays appended at ray indices 0 and 4 for the initial king
squares (60 for White, 4 for Black). -/
def kingMoveRays (origin : Nat) (white : Bool) : List (List Nat) :=
  let base := raysOf origin dirsAll 1
  if white ∧ origin = 60 then
    [60 + 2] :: base.take 3 ++ [[60 - 2]] ++ base.drop 3
  else if ¬ white ∧ origin = 4 then
    [4 + 2] :: base.take 3 ++ [[4 - 2]] ++ base.drop 3
  else base

/-- Modelled from the spec: pawn entries of `MOVES`.  White pawns move
toward row 0; the two-square advance from the pawn rank shares a ray with
the single advance; the two diagonal captures are separate rays. -/
def pawnMoveRays (origin : Nat) (white : Bool) : List (List Nat) :=
  let dr : Int := if white then -1 else 1
  let startRow : Nat := if white then 6 else 1
  let fwdLen : Nat := if origin / 8 = startRow then 2 else 1
  ([ray origin 0 dr fwdLen, ray origin (-1) dr 1, ray origin 1 dr 1]).filter (· ≠ [])

/-- Modelled from the spec: `MOVES[piece][origin]`, as a function from the
piece symbol; unknown symbols give `none` (the Python dict lookup fails). -/
def MOVES (piece : Char) : Option (Nat → List (List Nat)) :=
  match piece with
  | 'K' => some (fun o => kingMoveRays o true)
  | 'k' => some (fun o => kingMoveRays o false)
  | 'Q' | 'q' => some (fun o => raysOf o dirsAll 7)
  | 'R' | 'r' => some (fun o => raysOf o dirsRook 7)
  | 'B' | 'b' => some (fun o => raysOf o dirsBishop 7)
  | 'N' | 'n' => some (fun o => raysOf o dirsKnight 1)
  | 'P' => some (fun o => pawnMoveRays o true)
  | 'p' => some (fun o => pawnMoveRays o false)
  | _ => none

/-- The attacker piece types checked by `square_attacked` for a given
defending side: the keys of `RAYS_FROM_TARGET[player]`.  A defender `"w"`
faces the black pieces, and vice versa. -/
def attackerTypes (player : String) : List Char :=
  if player = "w" then ['k', 'q', 'r', 'b', 'n', 'p']
  else if player = "b" then ['K', 'Q', 'R', 'B', 'N', 'P'] else []

/-- Modelled from the spec: `RAYS_FROM_TARGET[player][piece][target]` —
rays outward from `target` along which an opposing piece of type `piece`
could attack it.  Attacker pawn rays hold only the two capture squares
(the squares from which an enemy pawn strikes the target); king rays are
the eight adjacent squares with no castling entries. -/
def targetRays (player : String) (piece : Char) (target : Nat) : List (List Nat) :=
  match piece.toLower with
  | 'q' => raysOf target dirsAll 7
  | 'r' => raysOf target dirsRook 7
  | 'b' => raysOf target dirsBishop 7
  | 'n' => raysOf target dirsKnight 1
  | 'k' => raysOf target dirsAll 1
  | 'p' =>
    if player = "w" then raysOf target [(1, -1), (-1, -1)] 1
    else raysOf target [(1, 1), (-1, 1)] 1
  | _ => []

/-! ## The attack / pin resolver (`square_attacked.py`) -/

/-- Result record of `square_attacked`: the `attacked` flag, the list of
`[attacker_index, attacking_ray_indices]` pairs, and the list of
`[pinned_piece_index, allowed_move_indices]` pairs. -/
structure SAres where
  attacked : Bool
  attack_info : List (Nat × List Nat)
  pins_info : List (Nat × List Nat)
deriving Repr, DecidableEq

/-- The friendliness test of `square_attacked.py` line 39: the occupant
belongs to the defending side. -/
def friendlyTo (player : String) (c : Char) : Bool :=
  (player = "w" && c.isUpper) || (player = "b" && c.isLower)

/-- The inner `while` walk of `square_attacked.py` (lines 42–51): continue
past the candidate pinned piece along the ray; if the next occupant is an
attacker of type `pc`, return the ray prefix up to and including it. -/
def scanPin (b : Board) (pc : Char) : List Nat → List Nat → Option (List Nat)
  | [], _ => none
  | e :: rest, acc =>
    let p := get_piece b e
    if p = ' ' then scanPin b pc rest (acc ++ [e])
    else if p = pc then some (acc ++ [e])
    else none

/-- Outcome of scanning one ray of `RAYS_FROM_TARGET`. -/
inductive ScanOut where
  | atk (e : Nat) (pre : List Nat)
  | pin (pinned : Nat) (pre : List Nat)
  | blocked
deriving Repr, DecidableEq

/-- The outer walk of one ray in `square_attacked.py` (lines 27–52): skip
empty squares; at the first occupant either report an attack, look for a
pin behind a friendly piece, or stop. -/
def scanRay (b : Board) (pc : Char) (player : String) :
    List Nat → List Nat → ScanOut
  | [], _ => .blocked
  | e :: rest, acc =>
    let p := get_piece b e
    if p = ' ' then scanRay b pc player rest (acc ++ [e])
    else if p = pc then .atk e (acc ++ [e])
    else if friendlyTo player p then
      match scanPin b pc rest (acc ++ [e]) with
      | some pre => .pin e pre
      | none => .blocked
    else .blocked

/-- Accumulating loop of `square_attacked` over all (piece type, ray)
pairs.  With `get_details = false` the Python function returns as soon as
an attack is found, before appending to `attack_info`. -/
def saLoop (b : Board) (player : String) (details : Bool) :
    List (Char × List Nat) → SAres → SAres
  | [], res => res
  | (pc, r) :: rest, res =>
    match scanRay b pc player r [] with
    | .atk e pre =>
      if details then
        saLoop b player details rest
          { res with attacked := true, attack_info := res.attack_info ++ [(e, pre)] }
      else { res with attacked := true }
    | .pin pinned pre =>
      saLoop b player details rest
        { res with pins_info := res.pins_info ++ [(pinned, pre)] }
    | .blocked => saLoop b player details rest res

/-- `square_attacked(board, square_index, player, get_details)`. -/
def square_attacked (b : Board) (square_index : Nat) (player : String)
    (get_details : Bool) : SAres :=
  let pairs := (attackerTypes player).flatMap
    (fun pc => (targetRays player pc square_index).map (fun r => (pc, r)))
  saLoop b player get_details pairs ⟨false, [], []⟩

/-! ## String helpers for FEN fields

`Game.set_fen` splits a FEN string on spaces and converts the clock
fields with `int(...)`; `apply_move` re-serialises with `str(...)` and
`' '.join(...)`.  These helpers model exactly that, working on character
lists. -/

/-- Split a character list on every space, like Python `s.split(' ')`. -/
def splitOnSpace : List Char → List (List Char)
  | [] => [[]]
  | c :: rest =>
    let r := splitOnSpace rest
    if c = ' ' then [] :: r
    else (c :: r.headD []) :: r.tail

/-- Decimal digits with structural fuel (any fuel above the digit count
gives the digits of `n`, most significant first). -/
def natDigitsAux : Nat → Nat → List Char
  | 0, _ => []
  | f + 1, n =>
    if n < 10 then [Char.ofNat (48 + n)]
    else natDigitsAux f (n / 10) ++ [Char.ofNat (48 + n % 10)]

/-- Decimal digits of a natural number, most significant first. -/
def natDigits (n : Nat) : List Char := natDigitsAux (n + 1) n

/-- `str(i)` for an integer. -/
def intChars (i : Int) : List Char :=
  if i < 0 then '-' :: natDigits i.natAbs else natDigits i.natAbs

/-- Parse an unsigned decimal numeral; `none` on empty input or any
non-digit character (as Python `int(...)` raises there). -/
def parseNat : List Char → Option Nat
  | [] => none
  | l => l.foldl (fun acc c =>
      match acc with
      | none => none
      | some n => if '0' ≤ c ∧ c ≤ '9' then some (n * 10 + (c.toNat - 48)) else none)
      (some 0)

/-- Parse a decimal integer with an optional leading sign, modelling
Python `int(...)` on FEN clock fields. -/
def parseInt (l : List Char) : Option Int :=
  match l with
  | '-' :: rest => (parseNat rest).map (fun n => -(n : Int))
  | '+' :: rest => (parseNat rest).map (fun n => (n : Int))
  | _ => (parseNat l).map (fun n => (n : Int))

/-! ## The `Game` class (`game.py`) -/

/-- The `State` namedtuple: FEN fields 2–6. -/
structure GameState where
  player : String
  rights : String
  en_passant : String
  ply : Int
  turn : Int
deriving Repr, DecidableEq

/-- The `Game` object's fields. -/
structure Game where
  board : Board
  state : GameState
  move_history : List String
  fen_history : List String
  moves : Option (List String)
  positions_count : List (String × Nat)
deriving Repr, DecidableEq

/-- Increment a key of the `positions_count` Counter. -/
def bumpCount (l : List (String × Nat)) (k : String) : List (String × Nat) :=
  if l.any (fun p => p.1 = k) then
    l.map (fun p => if p.1 = k then (p.1, p.2 + 1) else p)
  else l ++ [(k, 1)]

/-- `Game.set_fen`: append the FEN to the history, split it into the six
fields, convert the clocks with `int(...)`, store board and state, clear
the move cache and bump the repetition counter.  `none` models the Python
exceptions for a wrong field count or a non-numeric clock (whose partial
mutations no theorem here depends on). -/
def set_fen (fen : String) (g : Game) : Option Game :=
  let g1 := { g with fen_history := g.fen_history ++ [fen] }
  match splitOnSpace fen.toList with
  | [f0, f1, f2, f3, f4, f5] =>
    match parseInt f4, parseInt f5 with
    | some ply, some turn =>
      some { g1 with
        state := ⟨String.mk f1, String.mk f2, String.mk f3, ply, turn⟩,
        board := set_position (String.mk f0),
        moves := none,
        positions_count := bumpCount g1.positions_count (String.mk f0) }
    | _, _ => none
  | _ => none

/-- The default starting FEN of `Game`. -/
def default_fen : String := "rnbqkbnr/pppppppp/8/8/8/8/PPPPPPPP/RNBQKBNR w KQkq - 0 1"

/-- `Game.reset`: clear histories, cache and counter, then `set_fen`. -/
def reset (fen : String) (g : Game) : Option Game :=
  set_fen fen { g with
    move_history := [], fen_history := [], moves := none, positions_count := [] }

/-- The freshly constructed `Game` object before `__init__` runs
`set_fen` (board empty, placeholder state). -/
def emptyGame : Game :=
  ⟨List.replicate 64 ' ', ⟨" ", " ", " ", 0, 0⟩, [], [], none, []⟩

/-- `Game(fen)`: construct and initialise with `set_fen`. -/
def mkGame (fen : String) : Option Game :=
  set_fen fen emptyGame

/-- `Game.get_material_string`: the non-empty squares in index order. -/
def get_material_string (g : Game) : String :=
  String.mk (g.board.filter (· ≠ ' '))

/-! ## The legal move generator -/

/-- The castling-rights lookup of `_trace_ray` line 339:
`{62: 'K', 58: 'Q', 6: 'k', 2: 'q'}.get(end, ' ')`. -/
def castleRight (e : Nat) : Char :=
  if e = 62 then 'K' else if e = 58 then 'Q'
  else if e = 6 then 'k' else if e = 2 then 'q' else ' '

/-- `Game._trace_ray`: walk one ray from `start`, filtering by ownership,
king safety, castling legality, pawn rules, promotions and the
check-response filter; stop at the first capture or blocked square. -/
def trace_ray (g : Game) (start : Nat) (piece : Char) (player : String)
    (kal : List (Nat × List Nat)) (ap : List Nat) : List Nat → List String
  | [] => []
  | e :: rest =>
    let sym := piece.toLower
    let del_x := absDiff e start % 8
    let tgt := get_owner g.board e
    if tgt = some player then []
    else if sym = 'k' ∧
        (square_attacked (move_piece g.board start e piece) e player false).attacked then []
    else if sym = 'k' ∧ del_x = 2 ∧
        (kal ≠ [] ∨
         tgt.isSome ∨ (get_owner g.board ((start + e) / 2)).isSome ∨
         ¬ g.state.rights.toList.contains (castleRight e) ∨
         ((castleRight e).toLower = 'q' ∧ (get_owner g.board (e - 1)).isSome) ∨
         (square_attacked g.board ((start + e) / 2) player false).attacked) then []
    else if sym = 'p' ∧ del_x = 0 ∧ tgt.isSome then []
    else if sym = 'p' ∧ del_x ≠ 0 ∧ tgt.isNone ∧
        (g.state.en_passant = "-" ∨ e ≠ xy2i g.state.en_passant) then []
    else
      let mv : List String :=
        if sym = 'p' ∧ (e < 8 ∨ e > 55) then
          ['b', 'n', 'r', 'q'].map (fun s => i2xy start ++ i2xy e ++ String.mk [s])
        else [i2xy start ++ i2xy e]
      let mv2 := if ap ≠ [] ∧ sym ≠ 'k' ∧ ¬ ap.contains e then [] else mv
      mv2 ++ (if tgt.isSome then [] else trace_ray g start piece player kal ap rest)

/-- The collection loop of `_all_moves` lines 247–259: gather the given
player's piece origins from `idx_list`, inserting kings at the front of
the accumulated list and appending other pieces at its end. -/
def collectOwn (b : Board) (player : String) :
    List Nat → List (Nat × Char) → List (Nat × Char)
  | [], acc => acc
  | s :: rest, acc =>
    let piece := get_piece b s
    if piece = ' ' then collectOwn b player rest acc
    else if player = "w" ∧ piece.isLower then collectOwn b player rest acc
    else if player = "b" ∧ piece.isUpper then collectOwn b player rest acc
    else if piece.toLower = 'k' then collectOwn b player rest ((s, piece) :: acc)
    else collectOwn b player rest (acc ++ [(s, piece)])

/-- `Game._all_moves`: all reachable moves for the player's pieces in
`idx_list`.  `none` models the Python `IndexError` when the collected
origin list is empty (the code reads element `[0]` as the king) and the
failed table lookup for a symbol absent from `MOVES`. -/
def all_moves (g : Game) (playerArg : Option String) (idx_list : List Nat) :
    Option (List String) :=
  let player := playerArg.getD g.state.player
  let starts := collectOwn g.board player idx_list []
  match starts with
  | [] => none
  | (ksq, _) :: _ =>
    let kad := square_attacked g.board ksq player true
    let kal := kad.attack_info
    let pins := kad.pins_info
    let pinned := pins.map (fun p => p.1)
    let ap := kal.flatMap (fun a => a.2)
    let gen := if kal.length > 1 then starts.take 1
               else if kal.length = 1 then starts.filter (fun p => ¬ pinned.contains p.1)
               else starts
    if gen.any (fun p => (MOVES p.2).isNone) then none
    else some (gen.flatMap (fun p =>
      let rays := ((MOVES p.2).getD (fun _ => [])) p.1
      if pinned.contains p.1 then
        let allowed := ((pins.find? (fun pin => pin.1 = p.1)).getD (0, [])).2
        rays.flatMap (fun r =>
          trace_ray g p.1 p.2 player kal ap (r.filter (fun i => allowed.contains i)))
      else
        rays.flatMap (fun r => trace_ray g p.1 p.2 player kal ap r)))

/-- `Game.get_moves`: return the cached move list if present, otherwise
compute it with `_all_moves` and store it in the cache. -/
def get_moves (g : Game) (playerArg : Option String) (idx_list : List Nat) :
    Option (List String × Game) :=
  match g.moves with
  | some l => some (l, g)
  | none => (all_moves g playerArg idx_list).map
      (fun l => (l, { g with moves := some l }))

/-! ## Applying a move -/

/-- The two failure modes of `apply_move`: the `InvalidMove` exception and
any other Python runtime error (`IndexError`, `KeyError`, ...). -/
inductive ApplyErr where
  | invalidMove
  | pyError
deriving Repr, DecidableEq

/-- Decidable equality of `Except` results, for concrete evaluations. -/
instance {ε α : Type} [DecidableEq ε] [DecidableEq α] :
    DecidableEq (Except ε α) := fun x y =>
  match x, y with
  | .ok a, .ok b =>
    if h : a = b then isTrue (by rw [h]) else isFalse (by simp [h])
  | .error e, .error f =>
    if h : e = f then isTrue (by rw [h]) else isFalse (by simp [h])
  | .ok _, .error _ => isFalse (by simp)
  | .error _, .ok _ => isFalse (by simp)

/-- The voidable-rights lookup of `apply_move` lines 169–170. -/
def rightsVoid (i : Nat) : List Char :=
  if i = 0 then ['q'] else if i = 4 then ['k', 'q'] else if i = 7 then ['k']
  else if i = 56 then ['Q'] else if i = 60 then ['K', 'Q']
  else if i = 63 then ['K'] else []

/-- The player toggle `{'w': 'b', 'b': 'w'}[player]`; `none` models the
`KeyError` for any other value. -/
def playerToggle (p : String) : Option String :=
  if p = "w" then some "b" else if p = "b" then some "w" else none

/-- The surviving castling rights after a move (lines 169–173): filter out
every right associated with the origin or destination square. -/
def newRightsChars (g : Game) (start stop : Nat) : List Char :=
  g.state.rights.toList.filter
    (fun r => ¬ (rightsVoid start ++ rightsVoid stop).contains r)

/-- FEN rights field of the new state: the surviving rights, or `-`. -/
def rightsField (g : Game) (start stop : Nat) : List Char :=
  if newRightsChars g start stop = [] then ['-'] else newRightsChars g start stop

/-- FEN en-passant field of the new state (lines 176–178). -/
def epField (start stop : Nat) (piece : Char) : String :=
  if piece.toLower = 'p' ∧ absDiff start stop = 16 then i2xy ((start + stop) / 2)
  else "-"

/-- New halfmove clock (lines 180–183). -/
def plyField (g : Game) (piece target : Char) : Int :=
  if piece.toLower = 'p' ∨ target.toLower ≠ ' ' then 0 else g.state.ply + 1

/-- New fullmove number (lines 185–189). -/
def turnField (g : Game) : Int :=
  if g.state.player = "b" then g.state.turn + 1 else g.state.turn

/-- The piece placed on the destination: the promotion letter (upper-cased
for White) when the move has five characters, the moving piece otherwise. -/
def piece2Of (move : String) (player : String) (piece : Char) : Char :=
  if move.length = 5 then
    (let pc := move.toList.getD 4 ' '
     if player = "w" then pc.toUpper else pc)
  else piece

/-- The board mutations of `apply_move` (lines 197–216): move the piece,
move the castling rook when a king lands on a castling destination with
the right still held, and remove the en-passant victim. -/
def applyBoard (move : String) (start stop : Nat) (piece : Char) (g : Game) : Board :=
  let piece2 := piece2Of move g.state.player piece
  let b1 := move_piece g.board start stop piece2
  let c_type : Option Char :=
    if stop = 62 then some 'K' else if stop = 58 then some 'Q'
    else if stop = 6 then some 'k' else if stop = 2 then some 'q' else none
  let b2 := match c_type with
    | some c =>
      if piece2.toLower = 'k' ∧ g.state.rights.toList.contains c then
        let coords : Nat × Nat :=
          if c = 'K' then (63, 61) else if c = 'Q' then (56, 59)
          else if c = 'k' then (7, 5) else (0, 3)
        move_piece b1 coords.1 coords.2 (get_piece b1 coords.1)
      else b1
    | none => b1
  if piece2.toLower = 'p' ∧ g.state.en_passant ≠ "-" ∧
      xy2i g.state.en_passant = stop then
    (if xy2i g.state.en_passant < 24 then move_piece b2 (stop + 8) (stop + 8) ' '
     else if xy2i g.state.en_passant > 32 then move_piece b2 (stop - 8) (stop - 8) ' '
     else b2)
  else b2

/-- The game object as mutated by `apply_move` just before its final
`set_fen` call: move recorded in the history, board updated. -/
def applyMutations (move : String) (start stop : Nat) (piece : Char) (g : Game) : Game :=
  { g with move_history := g.move_history ++ [move],
           board := applyBoard move start stop piece g }

/-- The FEN string `' '.join(str(x) for x in [self.board] + list(fields))`
rebuilt by `apply_move` (line 219). -/
def applyFenString (np : String) (move : String) (start stop : Nat)
    (piece target : Char) (g : Game) : String :=
  String.mk (joinSep ' '
    [boardFenChars (applyBoard move start stop piece g), np.toList,
     rightsField g start stop, (epField start stop piece).toList,
     intChars (plyField g piece target), intChars (turnField g)])

/-- The state-and-board update of `apply_move` after the guards (lines
162–222): compute the five new state fields, move the piece (and the
castling rook / en-passant victim), then re-serialise and `set_fen`. -/
def applyCore (move : String) (start stop : Nat) (piece target : Char)
    (g : Game) : Except (ApplyErr × Game) Game :=
  match playerToggle g.state.player with
  | none => .error (.pyError, g)
  | some np =>
    match set_fen (applyFenString np move start stop piece target g)
        (applyMutations move start stop piece g) with
    | some g4 => .ok { g4 with moves := none }
    | none => .error (.pyError, applyMutations move start stop piece g)

/-- `move.lower()` for ASCII move strings, mapping each character. -/
def strLower (s : String) : String := String.mk (s.toList.map Char.toLower)

/-- `Game.xy2i(move[:2])`, the origin square of a move string. -/
def moveStart (mv : String) : Nat := xy2i (String.mk ((strLower mv).toList.take 2))

/-- `Game.xy2i(move[2:4])`, the destination square of a move string. -/
def moveStop (mv : String) : Nat :=
  xy2i (String.mk (((strLower mv).toList.drop 2).take 2))

/-- `Game.apply_move(move, validate)`.  The error value carries the state
of the game object at the moment the Python exception is raised (the
validation call may already have populated the move cache). -/
def apply_move (mvArg : Option String) (validate : Bool) (g : Game) :
    Except (ApplyErr × Game) Game :=
  match mvArg with
  | none => .error (.invalidMove, g)
  | some mv =>
    if mv = "" ∨ mv.length < 4 then .error (.invalidMove, g)
    else if validate then
      match get_moves g none [moveStart mv] with
      | none => .error (.pyError, g)
      | some (l, g1) =>
        if ¬ l.contains (strLower mv) then .error (.invalidMove, g1)
        else applyCore (strLower mv) (moveStart mv) (moveStop mv)
               (get_piece g.board (moveStart mv)) (get_piece g.board (moveStop mv)) g1
    else applyCore (strLower mv) (moveStart mv) (moveStop mv)
           (get_piece g.board (moveStart mv)) (get_piece g.board (moveStop mv)) g

/-- Sequential application of moves; `none` as soon as one application
fails. -/
def applyMoves : List (Option String × Bool) → Game → Option Game
  | [], g => some g
  | (m, v) :: rest, g =>
    match apply_move m v g with
    | .ok g1 => applyMoves rest g1
    | .error _ => none

/-! ## The status classifier -/

/-- Characters 2–3 of a move string (`m[2:4]`), its destination square. -/
def mid2 (m : String) : String := String.mk ((m.toList.drop 2).take 2)

/-- The lookup `{'w': ('K', 'b'), 'b': ('k', 'w')}.get(player)` opening
`Game.status`. -/
def oppInfo (player : String) : Option (Char × String) :=
  if player = "w" then some ('K', "b")
  else if player = "b" then some ('k', "w") else none

/-- The base classification of `Game.status` (NORMAL / CHECK / CHECKMATE
/ STALEMATE) before draw overrides: the side to move is "in check" when
some move of the opponent's generated list lands on the king's square.
`none` models the Python failure paths (unknown player, missing king,
crash inside the move generation). -/
def statusBase (g : Game) : Option Nat :=
  match oppInfo g.state.player with
  | none => none
  | some (k_sym, opp) =>
    match find_piece g.board k_sym with
    | none => none
    | some kidx =>
      match get_moves g none (List.range 64) with
      | none => none
      | some (mvs, g1) =>
        match all_moves g1 (some opp) (List.range 64) with
        | none => none
        | some oppMoves =>
          let is_exposed := oppMoves.filter (fun m => mid2 m = i2xy kidx)
          some (if is_exposed ≠ [] then (if mvs.length = 0 then CHECKMATE else CHECK)
                else if mvs.length = 0 then STALEMATE else NORMAL)

/-- Count of one piece symbol in the material string
(`Counter(material)[c]`). -/
def countPiece (m : String) (c : Char) : Nat := m.toList.count c

/-- `not (set(material_count) - {'k','K','n','N','b','B'})`: only kings,
knights and bishops remain. -/
def onlyKNB (m : String) : Bool :=
  m.toList.all (fun c => ['k', 'K', 'n', 'N', 'b', 'B'].contains c)

/-- The insufficient-material count test of `Game.status` line 408,
with Python's true division:
`material_count['n'] / 2 + material_count['b'] <= 1` for both sides. -/
def insufficientQ (m : String) : Prop :=
  ((countPiece m 'n' : ℚ) / 2 + (countPiece m 'b' : ℚ) ≤ 1) ∧
  ((countPiece m 'N' : ℚ) / 2 + (countPiece m 'B' : ℚ) ≤ 1)

instance (m : String) : Decidable (insufficientQ m) :=
  decidable_of_iff
    (countPiece m 'n' + 2 * countPiece m 'b' ≤ 2 ∧
     countPiece m 'N' + 2 * countPiece m 'B' ≤ 2)
    (by
      unfold insufficientQ
      constructor
      · rintro ⟨h1, h2⟩
        constructor
        · have c1 : (countPiece m 'n' : ℚ) + 2 * (countPiece m 'b' : ℚ) ≤ 2 := by
            exact_mod_cast h1
          linarith
        · have c2 : (countPiece m 'N' : ℚ) + 2 * (countPiece m 'B' : ℚ) ≤ 2 := by
            exact_mod_cast h2
          linarith
      · rintro ⟨h1, h2⟩
        constructor
        · have c1 : (countPiece m 'n' : ℚ) + 2 * (countPiece m 'b' : ℚ) ≤ 2 := by
            linarith
          exact_mod_cast c1
        · have c2 : (countPiece m 'N' : ℚ) + 2 * (countPiece m 'B' : ℚ) ≤ 2 := by
            linarith
          exact_mod_cast c2)

/-- `max(self.positions_count.values()) >= 3`, for a non-empty counter. -/
def three_fold (g : Game) : Bool := g.positions_count.any (fun p => 3 ≤ p.2)

/-- `Game.status`: the base classification with the draw overrides
(50-move rule and insufficient material when the base is NORMAL, and the
threefold-repetition override on top). -/
def status (g : Game) : Option Nat :=
  match statusBase g with
  | none => none
  | some base =>
    if g.positions_count = [] then none
    else
      let m := get_material_string g
      let s2 := if base = NORMAL then
          (if g.state.ply ≥ 100 then DRAW
           else if onlyKNB m ∧ insufficientQ m then DRAW else NORMAL)
        else base
      some (if three_fold g then DRAW else s2)

/-! ## Auxiliary predicates used by the theorems -/

/-- Whether an `apply_move` result is the `InvalidMove` exception. -/
def isInvalidErr : Except (ApplyErr × Game) Game → Bool
  | .error (.invalidMove, _) => true
  | _ => false

/-- Whether a move string is absent from a successful `get_moves` result
(`false` when the lookup itself failed). -/
def absentFrom (o : Option (List String × Game)) (m : String) : Bool :=
  match o with
  | some (l, _) => ¬ l.contains m
  | none => false

/-- Well-formed move coordinates after lowercasing: files a..h and ranks
1..8 in the four coordinate characters (the region on which the `xy2i`
translation is faithful to the Python code). -/
def moveCoordsOK (mv : String) : Bool :=
  let l := (strLower mv).toList
  coordOK (l.getD 0 ' ') (l.getD 1 ' ') && coordOK (l.getD 2 ' ') (l.getD 3 ' ')

/-- The piece-retention test of the `_all_moves` collection loop: the
square is non-empty and not an opponent piece of the given player. -/
def ownKeep (player : String) (c : Char) : Bool :=
  ¬ (c = ' ') ∧ ¬ (player = "w" ∧ c.isLower) ∧ ¬ (player = "b" ∧ c.isUpper)

/-! ## Concrete positions -/

/-- The game at the standard starting position. -/
def startGame : Game := (mkGame default_fen).getD emptyGame

/-- A game after a `get_moves` call restricted to origin a2 (square 48),
which populates the move cache with the two a-pawn moves only. -/
def staleGame : Game := ((get_moves startGame none [48]).getD ([], emptyGame)).2

/-- White king c3, white rook e1, black bishop e5 (pinned against the
black king e8 by the rook), White to move: the bishop checks the white
king but generates no move, because its moves are restricted to the pin
ray. -/
def gameCheckScan : Game := (mkGame "4k3/8/8/4b3/8/2K5/8/4R3 w - - 0 1").getD emptyGame

/-- King and bishop against king and bishop: insufficient material. -/
def gameKB : Game := (mkGame "8/8/2bk4/8/4B3/8/3K4/8 w - - 0 1").getD emptyGame

/-- King, bishop and knight against king and bishop: not a draw under the
source's test. -/
def gameKNB : Game := (mkGame "8/8/2bk4/8/4B3/3N4/3K4/8 w - - 0 1").getD emptyGame

/-- White king e1 and rook h1 with kingside castling rights. -/
def gameRookK : Game := (mkGame "4k3/8/8/8/8/8/8/4K2R w K - 0 1").getD emptyGame

/-- The state after `get_moves` on the starting position with default
arguments. -/
def cachedStart : Game := ((get_moves startGame none (List.range 64)).getD ([], emptyGame)).2

/-- The state after applying the rook lift h1h2 to `gameRookK`, which
voids White's last castling right. -/
def afterRookLift : Game :=
  (applyMoves [(some "h1h2", false)] gameRookK).getD emptyGame

/-! ## C1: the scan-based check test against `square_attacked` -/

/-- C1: the two in-check tests disagree.  In `gameCheckScan` (reachable
from the position after White's rook check was blocked by the bishop on
e5), the black bishop is pinned against its own king, so `_all_moves` of
the opponent contains no move landing on the white king's square c3 and
`status` reports NORMAL — while `square_attacked(board, c3, "w")` reports
the king attacked by that very bishop. -/
theorem status_scan_misses_pinned_checker :
    status gameCheckScan = some NORMAL ∧
    (square_attacked gameCheckScan.board (xy2i "c3") "w" false).attacked = true := by
  decide

/-! ## C2: the insufficient-material draw rule -/

/-- True division against the natural-number inequality: the test of
`game.py` line 408 for one side. -/
lemma half_add_le_one_iff (a b : Nat) :
    ((a : ℚ) / 2 + (b : ℚ) ≤ 1) ↔ a + 2 * b ≤ 2 := by
  rw [div_add' _ _ _ (two_ne_zero), div_le_one (by norm_num : (0:ℚ) < 2)]
  constructor
  · intro h
    have : (a : ℚ) + 2 * b ≤ 2 := by linarith
    exact_mod_cast this
  · intro h
    have : (a : ℚ) + 2 * b ≤ 2 := by exact_mod_cast h
    linarith

/-- The source's insufficient-material count test, characterised over the
naturals: `n / 2 + b ≤ 1` in Python's true division is `n + 2·b ≤ 2`. -/
lemma insufficientQ_iff (m : String) :
    insufficientQ m ↔
      (countPiece m 'n' + 2 * countPiece m 'b' ≤ 2 ∧
       countPiece m 'N' + 2 * countPiece m 'B' ≤ 2) := by
  unfold insufficientQ
  rw [half_add_le_one_iff, half_add_le_one_iff]

/-- C2 (amended): when the base status is NORMAL and neither the 50-move
rule nor threefold repetition applies, the classifier returns DRAW exactly
when only kings, knights and bishops remain and, for each side,
`knights + 2 · bishops ≤ 2` — the code's `knights / 2 + bishops ≤ 1` under
Python's exact (true) division, not integer division. -/
theorem status_draw_insufficient_material_iff (g : Game)
    (hb : statusBase g = some NORMAL)
    (hply : g.state.ply < 100)
    (h3 : three_fold g = false)
    (hpc : g.positions_count ≠ []) :
    status g = some DRAW ↔
      (onlyKNB (get_material_string g) = true ∧
       countPiece (get_material_string g) 'n'
         + 2 * countPiece (get_material_string g) 'b' ≤ 2 ∧
       countPiece (get_material_string g) 'N'
         + 2 * countPiece (get_material_string g) 'B' ≤ 2) := by
  simp only [status, hb]
  rw [if_neg hpc]
  simp only [h3, Bool.false_eq_true, if_false, if_true,
    if_neg (by omega : ¬ (g.state.ply ≥ 100))]
  by_cases hc : onlyKNB (get_material_string g) = true ∧ insufficientQ (get_material_string g)
  · rw [if_pos hc]
    simp only [true_iff]
    have h2 := (insufficientQ_iff _).mp hc.2
    exact ⟨hc.1, h2.1, h2.2⟩
  · rw [if_neg hc]
    constructor
    · intro h
      exact absurd h (by decide)
    · rintro ⟨h1, h2, h3'⟩
      exact absurd ⟨h1, (insufficientQ_iff _).mpr ⟨h2, h3'⟩⟩ hc

/-- C2 counterexample: with the *integer* division of the claim, K+B+N
against K+B satisfies `knights/2 + bishops ≤ 1` for both sides and only
kings, knights and bishops remain, yet the classifier does not return
DRAW there (the source's true division yields 1.5 for White). -/
theorem status_insufficient_material_int_div_refuted :
    statusBase gameKNB = some NORMAL ∧
    gameKNB.state.ply < 100 ∧
    three_fold gameKNB = false ∧
    gameKNB.positions_count ≠ [] ∧
    onlyKNB (get_material_string gameKNB) = true ∧
    countPiece (get_material_string gameKNB) 'n' / 2
      + countPiece (get_material_string gameKNB) 'b' ≤ 1 ∧
    countPiece (get_material_string gameKNB) 'N' / 2
      + countPiece (get_material_string gameKNB) 'B' ≤ 1 ∧
    status gameKNB ≠ some DRAW := by
  decide

/-- C2 witness: the amended rule applied to the concrete K+B-vs-K+B
position `gameKB`, which it classifies as a DRAW. -/
theorem status_draw_insufficient_material_iff_witness :
    status gameKB = some DRAW :=
  (status_draw_insufficient_material_iff gameKB (by decide) (by decide)
    (by decide) (by decide)).mpr (by decide)

/-! ## C3, C9, C10: cache and frame properties -/

/-- A successful `set_fen` leaves the move cache cleared. -/
lemma set_fen_clears_cache (fen : String) (g g' : Game)
    (h : set_fen fen g = some g') : g'.moves = none := by
  unfold set_fen at h
  split at h
  · split at h
    · cases h
      rfl
    · exact absurd h (by simp)
  · exact absurd h (by simp)

/-- `applyCore`'s possible outcomes: a success built from a successful
`set_fen`, or the `pyError` failure. -/
lemma applyCore_ok_shape (move : String) (start stop : Nat) (piece target : Char)
    (g g' : Game) (h : applyCore move start stop piece target g = .ok g') :
    ∃ np g4, playerToggle g.state.player = some np ∧
      set_fen (applyFenString np move start stop piece target g)
        (applyMutations move start stop piece g) = some g4 ∧
      g' = { g4 with moves := none } := by
  unfold applyCore at h
  split at h
  · exact absurd h (by simp)
  · rename_i np hp
    split at h
    · rename_i g4 hsf
      cases h
      exact ⟨np, g4, hp, hsf, rfl⟩
    · exact absurd h (by simp)

/-- `applyCore` never produces the `InvalidMove` error. -/
lemma applyCore_no_invalid (move : String) (start stop : Nat) (piece target : Char)
    (g : Game) : isInvalidErr (applyCore move start stop piece target g) = false := by
  unfold applyCore
  split
  · rfl
  · split <;> rfl

/-- A successful `applyCore` leaves the move cache cleared. -/
lemma applyCore_ok_cache (move : String) (start stop : Nat) (piece target : Char)
    (g g' : Game) (h : applyCore move start stop piece target g = .ok g') :
    g'.moves = none := by
  obtain ⟨np, g4, _, _, hg⟩ := applyCore_ok_shape _ _ _ _ _ _ _ h
  rw [hg]

/-- A successful `apply_move` leaves the move cache cleared. -/
lemma apply_move_ok_cache (mvArg : Option String) (v : Bool) (g g' : Game)
    (h : apply_move mvArg v g = .ok g') : g'.moves = none := by
  cases mvArg with
  | none =>
    exact Except.noConfusion
      (show Except.error (ApplyErr.invalidMove, g) = Except.ok g' from h)
  | some mv =>
    rw [show apply_move (some mv) v g =
      (if mv = "" ∨ mv.length < 4 then .error (.invalidMove, g)
       else if v then
         match get_moves g none [moveStart mv] with
         | none => .error (.pyError, g)
         | some (l, g1) =>
           if ¬ l.contains (strLower mv) then .error (.invalidMove, g1)
           else applyCore (strLower mv) (moveStart mv) (moveStop mv)
                  (get_piece g.board (moveStart mv)) (get_piece g.board (moveStop mv)) g1
       else applyCore (strLower mv) (moveStart mv) (moveStop mv)
              (get_piece g.board (moveStart mv)) (get_piece g.board (moveStop mv)) g)
      from rfl] at h
    split at h
    · exact Except.noConfusion h
    · split at h
      · split at h
        · exact Except.noConfusion h
        · split at h
          · exact Except.noConfusion h
          · exact applyCore_ok_cache _ _ _ _ _ _ _ h
      · exact applyCore_ok_cache _ _ _ _ _ _ _ h

/-- `get_moves` changes at most the `moves` cache of the game object. -/
lemma get_moves_frame (g : Game) (p : Option String) (idx : List Nat)
    (l : List String) (g' : Game) (h : get_moves g p idx = some (l, g')) :
    g'.board = g.board ∧ g'.state = g.state ∧ g'.move_history = g.move_history ∧
    g'.fen_history = g.fen_history ∧ g'.positions_count = g.positions_count := by
  unfold get_moves at h
  split at h
  · cases h
    exact ⟨rfl, rfl, rfl, rfl, rfl⟩
  · cases ha : all_moves g p idx with
    | none => rw [ha] at h; exact absurd h (by simp)
    | some a =>
      rw [ha] at h
      simp only [Option.map_some'] at h
      cases h
      exact ⟨rfl, rfl, rfl, rfl, rfl⟩

/-- C3 (amended): the move cache is empty immediately after a successful
`reset`, `apply_move` or `set_fen`; and a `get_moves` call with default
arguments made *when the cache is empty* stores exactly the freshly
computed full move list of the side to move in the cache and returns it.
(The original claim, quantifying over every `get_moves` call with default
arguments, fails when the cache was pre-populated by a filtered call; see
the counterexample.) -/
theorem move_cache_invalidation :
    (∀ (fen : String) (g g' : Game), reset fen g = some g' → g'.moves = none) ∧
    (∀ (mvArg : Option String) (v : Bool) (g g' : Game),
      apply_move mvArg v g = .ok g' → g'.moves = none) ∧
    (∀ (fen : String) (g g' : Game), set_fen fen g = some g' → g'.moves = none) ∧
    (∀ (g : Game) (l : List String) (g' : Game), g.moves = none →
      get_moves g none (List.range 64) = some (l, g') →
      g'.moves = some l ∧ all_moves g none (List.range 64) = some l) := by
  refine ⟨?_, ?_, ?_, ?_⟩
  · intro fen g g' h
    exact set_fen_clears_cache _ _ _ h
  · intro mvArg v g g' h
    exact apply_move_ok_cache _ _ _ _ h
  · intro fen g g' h
    exact set_fen_clears_cache _ _ _ h
  · intro g l g' hm h
    unfold get_moves at h
    rw [hm] at h
    cases ha : all_moves g none (List.range 64) with
    | none => rw [ha] at h; exact absurd h (by simp)
    | some a =>
      rw [ha] at h
      simp only [Option.map_some', Option.some.injEq, Prod.mk.injEq] at h
      obtain ⟨h1, h2⟩ := h
      refine ⟨?_, ?_⟩
      · rw [← h2, h1]
      · rw [h1]

/-- C3 counterexample: after `get_moves` restricted to the a2 pawn, a
further `get_moves` call with default arguments returns the stale cached
two-element list, which differs from the freshly computed full move list
of the side to move. -/
theorem move_cache_stale_counterexample :
    staleGame.moves = some ["a2a3", "a2a4"] ∧
    get_moves staleGame none (List.range 64) = some (["a2a3", "a2a4"], staleGame) ∧
    all_moves staleGame none (List.range 64) ≠ some ["a2a3", "a2a4"] := by
  decide

/-- C3 witness: the invalidation theorem applied to concrete operations on
the starting position. -/
theorem move_cache_invalidation_witness :
    ((reset default_fen staleGame).getD emptyGame).moves = none ∧
    ((apply_move (some "e2e4") false startGame).toOption.getD emptyGame).moves = none ∧
    startGame.moves = none ∧
    cachedStart.moves = some (((get_moves startGame none (List.range 64)).getD
      ([], emptyGame)).1) :=
  ⟨move_cache_invalidation.1 default_fen staleGame _ (by decide),
   move_cache_invalidation.2.1 (some "e2e4") false startGame _ (by decide),
   move_cache_invalidation.2.2.1 default_fen emptyGame _ (by decide),
   (move_cache_invalidation.2.2.2 startGame _ cachedStart (by decide) (by decide)).1⟩

/-- C9: whenever `apply_move` raises `InvalidMove`, the game is unchanged
except possibly for the move cache: board, state tuple, move history, FEN
history and the repetition counter are exactly as before the call. -/
theorem apply_move_invalid_leaves_game_unchanged :
    ∀ (mvArg : Option String) (v : Bool) (g g' : Game),
      apply_move mvArg v g = .error (.invalidMove, g') →
      g'.board = g.board ∧ g'.state = g.state ∧ g'.move_history = g.move_history ∧
      g'.fen_history = g.fen_history ∧ g'.positions_count = g.positions_count := by
  intro mvArg v g g' h
  cases mvArg with
  | none =>
    have h' : (Except.error (ApplyErr.invalidMove, g) : Except (ApplyErr × Game) Game)
        = .error (.invalidMove, g') := h
    cases h'
    exact ⟨rfl, rfl, rfl, rfl, rfl⟩
  | some mv =>
    rw [show apply_move (some mv) v g =
      (if mv = "" ∨ mv.length < 4 then .error (.invalidMove, g)
       else if v then
         match get_moves g none [moveStart mv] with
         | none => .error (.pyError, g)
         | some (l, g1) =>
           if ¬ l.contains (strLower mv) then .error (.invalidMove, g1)
           else applyCore (strLower mv) (moveStart mv) (moveStop mv)
                  (get_piece g.board (moveStart mv)) (get_piece g.board (moveStop mv)) g1
       else applyCore (strLower mv) (moveStart mv) (moveStop mv)
              (get_piece g.board (moveStart mv)) (get_piece g.board (moveStop mv)) g)
      from rfl] at h
    split at h
    · cases h
      exact ⟨rfl, rfl, rfl, rfl, rfl⟩
    · split at h
      · split at h
        · exact absurd h (by simp)
        · rename_i l g1 heq
          split at h
          · cases h
            exact get_moves_frame _ _ _ _ _ heq
          · have hni := applyCore_no_invalid (strLower mv) (moveStart mv) (moveStop mv)
              (get_piece g.board (moveStart mv)) (get_piece g.board (moveStop mv)) g1
            rw [h] at hni
            exact absurd hni (by simp [isInvalidErr])
      · have hni := applyCore_no_invalid (strLower mv) (moveStart mv) (moveStop mv)
          (get_piece g.board (moveStart mv)) (get_piece g.board (moveStop mv)) g
        rw [h] at hni
        exact absurd hni (by simp [isInvalidErr])

/-- C9 witness: an `InvalidMove` raised for a too-short move string leaves
a concrete game unchanged. -/
theorem apply_move_invalid_leaves_game_unchanged_witness :
    startGame.board = startGame.board ∧ startGame.state = startGame.state ∧
    startGame.move_history = startGame.move_history ∧
    startGame.fen_history = startGame.fen_history ∧
    startGame.positions_count = startGame.positions_count :=
  apply_move_invalid_leaves_game_unchanged (some "e4") false startGame startGame
    (by decide)

/-- C10: `get_moves` (and through it `_all_moves`) leaves the game's board
and state unchanged — the only field it may write is the move cache; the
king-safety probe inside `_trace_ray` works on a separate board value
obtained from `move_piece`, never on the live board. -/
theorem get_moves_preserves_board_and_state :
    ∀ (g : Game) (p : Option String) (idx : List Nat) (l : List String) (g' : Game),
      get_moves g p idx = some (l, g') →
      g'.board = g.board ∧ g'.state = g.state ∧ g'.move_history = g.move_history ∧
      g'.fen_history = g.fen_history ∧ g'.positions_count = g.positions_count :=
  fun g p idx l g' h => get_moves_frame g p idx l g' h

/-- C4 (amended): `apply_move` raises `InvalidMove` exactly when the move
string is None, empty or shorter than four characters, or `validate` is
true and the origin-filtered `get_moves` lookup succeeds with a list not
containing the (lowercased) move.  When `validate` is true, the cache is
empty and the origin square holds no piece of the side to move, the
lookup itself crashes and `apply_move` fails with an `IndexError`, not
`InvalidMove` (see the counterexample); move strings with malformed
coordinates (outside the hypothesis) raise a `ValueError` inside `xy2i`
and are outside this statement's scope. -/
theorem apply_move_invalid_iff (v : Bool) (g : Game) :
    (apply_move none v g = .error (.invalidMove, g)) ∧
    ∀ mv : String, (mv.length < 4 ∨ moveCoordsOK mv = true) →
      (isInvalidErr (apply_move (some mv) v g) = true ↔
        (mv.length < 4 ∨ (v = true ∧
          absentFrom (get_moves g none [moveStart mv]) (strLower mv) = true))) := by
  constructor
  · rfl
  · intro mv _
    rw [show apply_move (some mv) v g =
      (if mv = "" ∨ mv.length < 4 then .error (.invalidMove, g)
       else if v then
         match get_moves g none [moveStart mv] with
         | none => .error (.pyError, g)
         | some (l, g1) =>
           if ¬ l.contains (strLower mv) then .error (.invalidMove, g1)
           else applyCore (strLower mv) (moveStart mv) (moveStop mv)
                  (get_piece g.board (moveStart mv)) (get_piece g.board (moveStop mv)) g1
       else applyCore (strLower mv) (moveStart mv) (moveStop mv)
              (get_piece g.board (moveStart mv)) (get_piece g.board (moveStop mv)) g)
      from rfl]
    by_cases hs : mv = "" ∨ mv.length < 4
    · have hlen : mv.length < 4 := by
        rcases hs with h | h
        · rw [h]; decide
        · exact h
      rw [if_pos hs]
      simp [isInvalidErr, hlen]
    · have hlen : ¬ (mv.length < 4) := fun hl => hs (Or.inr hl)
      rw [if_neg hs]
      cases v with
      | false =>
        simp [applyCore_no_invalid, hlen]
      | true =>
        rw [if_pos rfl]
        cases hgm : get_moves g none [moveStart mv] with
        | none =>
          simp [isInvalidErr, absentFrom, hlen]
        | some pr =>
          obtain ⟨l, g1⟩ := pr
          by_cases hc : l.contains (strLower mv) = true
          · have hmem : strLower mv ∈ l := by simpa using hc
            simp [applyCore_no_invalid, absentFrom, hmem, hlen]
          · have hnm : strLower mv ∉ l := by simpa using hc
            simp [isInvalidErr, absentFrom, hnm, hlen]

/-- C4 counterexample: a well-formed, full-length move whose origin square
holds an opponent piece, applied with `validate = true` on a fresh cache:
the Python code indexes `[0]` of an empty origin list inside `_all_moves`
and dies with an `IndexError` instead of completing or raising
`InvalidMove`. -/
theorem apply_move_crashes_on_foreign_origin :
    moveCoordsOK "e7e5" = true ∧ ¬ ("e7e5".length < 4) ∧
    apply_move (some "e7e5") true startGame = .error (.pyError, startGame) := by
  decide

/-- C4 witness: a pawn move missing from the legal list raises
`InvalidMove` on the starting position. -/
theorem apply_move_invalid_iff_witness :
    isInvalidErr (apply_move (some "a2a5") true startGame) = true :=
  ((apply_move_invalid_iff true startGame).2 "a2a5" (by decide)).mpr (by decide)

/-! ## C8: the king heads the collected origin list -/

/-- A retained entry of the collection loop satisfies `ownKeep`. -/
lemma ownKeep_of_not_skipped (player : String) (c : Char)
    (h1 : ¬ (c = ' ')) (h2 : ¬ (player = "w" ∧ c.isLower))
    (h3 : ¬ (player = "b" ∧ c.isUpper)) : ownKeep player c = true :=
  decide_eq_true ⟨h1, h2, h3⟩

/-- Once a king entry heads the accumulated list, it stays at the head as
long as every further king entry is that same king. -/
lemma collectOwn_head_stable (b : Board) (player : String) (ksq : Nat) :
    ∀ (l : List Nat) (acc : List (Nat × Char)),
      (∀ i ∈ l, ownKeep player (get_piece b i) = true →
        (get_piece b i).toLower = 'k' → i = ksq) →
      acc.head? = some (ksq, get_piece b ksq) →
      (collectOwn b player l acc).head? = some (ksq, get_piece b ksq) := by
  intro l
  induction l with
  | nil => intro acc _ hacc; exact hacc
  | cons s rest ih =>
    intro acc hu hacc
    have hurest : ∀ i ∈ rest, ownKeep player (get_piece b i) = true →
        (get_piece b i).toLower = 'k' → i = ksq :=
      fun i hi => hu i (List.mem_cons_of_mem s hi)
    unfold collectOwn
    by_cases h1 : get_piece b s = ' '
    · rw [if_pos h1]
      exact ih acc hurest hacc
    · rw [if_neg h1]
      by_cases h2 : player = "w" ∧ (get_piece b s).isLower
      · rw [if_pos h2]
        exact ih acc hurest hacc
      · rw [if_neg h2]
        by_cases h3 : player = "b" ∧ (get_piece b s).isUpper
        · rw [if_pos h3]
          exact ih acc hurest hacc
        · rw [if_neg h3]
          by_cases hk : (get_piece b s).toLower = 'k'
          · rw [if_pos hk]
            have hs : s = ksq := hu s (List.mem_cons_self s rest)
              (ownKeep_of_not_skipped player _ h1 h2 h3) hk
            subst hs
            exact ih _ hurest rfl
          · rw [if_neg hk]
            refine ih _ hurest ?_
            rw [List.head?_append]
            rw [hacc]
            rfl

/-- If the given player's king square occurs in the scanned index list and
is its only own-king entry, the collection loop ends with the king entry
at the head. -/
lemma collectOwn_king_head (b : Board) (player : String) (ksq : Nat)
    (hown : ownKeep player (get_piece b ksq) = true)
    (hk : (get_piece b ksq).toLower = 'k') :
    ∀ (l : List Nat) (acc : List (Nat × Char)),
      ksq ∈ l →
      (∀ i ∈ l, ownKeep player (get_piece b i) = true →
        (get_piece b i).toLower = 'k' → i = ksq) →
      (collectOwn b player l acc).head? = some (ksq, get_piece b ksq) := by
  intro l
  induction l with
  | nil => intro acc hmem; exact absurd hmem (List.not_mem_nil ksq)
  | cons s rest ih =>
    intro acc hmem hu
    have hurest : ∀ i ∈ rest, ownKeep player (get_piece b i) = true →
        (get_piece b i).toLower = 'k' → i = ksq :=
      fun i hi => hu i (List.mem_cons_of_mem s hi)
    by_cases hs : s = ksq
    · subst hs
      have h1 : ¬ (get_piece b s = ' ') := by
        intro he
        rw [he] at hk
        exact absurd hk (by decide)
      have h2 : ¬ (player = "w" ∧ (get_piece b s).isLower) := by
        intro hc
        have := hown
        simp [ownKeep, hc.1, hc.2] at this
      have h3 : ¬ (player = "b" ∧ (get_piece b s).isUpper) := by
        intro hc
        have := hown
        simp [ownKeep, hc.1, hc.2] at this
      unfold collectOwn
      rw [if_neg h1, if_neg h2, if_neg h3, if_pos hk]
      exact collectOwn_head_stable b player s rest _ hurest rfl
    · rcases List.mem_cons.mp hmem with he | hrest
      · exact absurd he.symm hs
      · unfold collectOwn
        by_cases h1 : get_piece b s = ' '
        · rw [if_pos h1]; exact ih acc hrest hurest
        · rw [if_neg h1]
          by_cases h2 : player = "w" ∧ (get_piece b s).isLower
          · rw [if_pos h2]; exact ih acc hrest hurest
          · rw [if_neg h2]
            by_cases h3 : player = "b" ∧ (get_piece b s).isUpper
            · rw [if_pos h3]; exact ih acc hrest hurest
            · rw [if_neg h3]
              by_cases hks : (get_piece b s).toLower = 'k'
              · rw [if_pos hks]
                exact absurd (hu s (List.mem_cons_self s rest)
                  (ownKeep_of_not_skipped player _ h1 h2 h3) hks) hs
              · rw [if_neg hks]
                exact ih _ hrest hurest

/-- C8: when the origin filter passed to the move generator contains the
square of the given player's king (and no other square of the filter holds
an own king), the collected origin list of `_all_moves` is non-empty and
its first element is the king's square — so the `[0]` indexing for the
king-attack lookup neither fails nor queries a non-king square. -/
theorem all_moves_origin_head_is_king (b : Board) (player : String)
    (idx : List Nat) (ksq : Nat)
    (hmem : ksq ∈ idx)
    (hown : ownKeep player (get_piece b ksq) = true)
    (hk : (get_piece b ksq).toLower = 'k')
    (huniq : ∀ i ∈ idx, ownKeep player (get_piece b i) = true →
      (get_piece b i).toLower = 'k' → i = ksq) :
    collectOwn b player idx [] ≠ [] ∧
    (collectOwn b player idx []).head? = some (ksq, get_piece b ksq) := by
  have h := collectOwn_king_head b player ksq hown hk idx [] hmem huniq
  constructor
  · intro he
    rw [he] at h
    exact Option.noConfusion h
  · exact h

/-- C8 witness: the white king square 60 heads the origins collected from
the full board scan of the starting position. -/
theorem all_moves_origin_head_is_king_witness :
    collectOwn startGame.board "w" (List.range 64) [] ≠ [] ∧
    (collectOwn startGame.board "w" (List.range 64) []).head? =
      some (60, get_piece startGame.board 60) :=
  all_moves_origin_head_is_king startGame.board "w" (List.range 64) 60
    (by decide) (by decide) (by decide) (by decide)

/-! ## C5: castling emission conditions in the ray tracer -/

/-- `fileChar` is injective below 8. -/
lemma fileChar_inj : ∀ a : Nat, a < 8 → ∀ b : Nat, b < 8 →
    fileChar a = fileChar b → a = b := by decide

/-- `rankChar` is injective below 8. -/
lemma rankChar_inj : ∀ a : Nat, a < 8 → ∀ b : Nat, b < 8 →
    rankChar a = rankChar b → a = b := by decide

/-- `i2xy` is injective on board indices. -/
lemma i2xy_inj (a c : Nat) (ha : a < 64) (hc : c < 64)
    (h : (i2xy a).data = (i2xy c).data) : a = c := by
  unfold i2xy at h
  simp only [String.mk] at h  -- no-op placeholder
  injection h with h1 h2
  injection h2 with h2 _
  have e1 : a % 8 = c % 8 :=
    fileChar_inj _ (Nat.mod_lt _ (by norm_num)) _ (Nat.mod_lt _ (by norm_num)) h1
  have e2 : a / 8 = c / 8 :=
    rankChar_inj _ (by omega) _ (by omega) h2
  omega

/-- C5: the ray tracer emits a castling move — a king move with
`abs(end − start) % 8 = 2` — only when the king is not in check
(`king_attack_list` empty), the destination and the transit square
`(start + end) / 2` are empty, the corresponding castling right is held
(for queenside additionally `end − 1` is empty), and the transit square is
not attacked. -/
theorem trace_ray_castle_only_if
    (g : Game) (start : Nat) (piece : Char) (player : String)
    (kal : List (Nat × List Nat)) (ap : List Nat) (e : Nat)
    (hp : piece.toLower = 'k')
    (hs : start < 64) (he : e < 64)
    (hdx : absDiff e start % 8 = 2) :
    ∀ r : List Nat, (∀ x ∈ r, x < 64) →
      (i2xy start ++ i2xy e) ∈ trace_ray g start piece player kal ap r →
      kal = [] ∧ get_owner g.board e = none ∧
      get_owner g.board ((start + e) / 2) = none ∧
      g.state.rights.toList.contains (castleRight e) = true ∧
      ((castleRight e).toLower = 'q' → get_owner g.board (e - 1) = none) ∧
      (square_attacked g.board ((start + e) / 2) player false).attacked = false := by
  intro r
  induction r with
  | nil => intro _ hmem; exact absurd hmem (List.not_mem_nil _)
  | cons a rest ih =>
    intro hb hmem
    have hbrest : ∀ x ∈ rest, x < 64 := fun x hx => hb x (List.mem_cons_of_mem a hx)
    have ha64 : a < 64 := hb a (List.mem_cons_self a rest)
    rw [show trace_ray g start piece player kal ap (a :: rest) =
      (if get_owner g.board a = some player then []
       else if piece.toLower = 'k' ∧
           (square_attacked (move_piece g.board start a piece) a player false).attacked then []
       else if piece.toLower = 'k' ∧ absDiff a start % 8 = 2 ∧
           (kal ≠ [] ∨
            (get_owner g.board a).isSome ∨
            (get_owner g.board ((start + a) / 2)).isSome ∨
            ¬ g.state.rights.toList.contains (castleRight a) ∨
            ((castleRight a).toLower = 'q' ∧ (get_owner g.board (a - 1)).isSome) ∨
            (square_attacked g.board ((start + a) / 2) player false).attacked) then []
       else if piece.toLower = 'p' ∧ absDiff a start % 8 = 0 ∧
           (get_owner g.board a).isSome then []
       else if piece.toLower = 'p' ∧ absDiff a start % 8 ≠ 0 ∧
           (get_owner g.board a).isNone ∧
           (g.state.en_passant = "-" ∨ a ≠ xy2i g.state.en_passant) then []
       else
         (if ap ≠ [] ∧ piece.toLower ≠ 'k' ∧ ¬ ap.contains a then []
          else if piece.toLower = 'p' ∧ (a < 8 ∨ a > 55) then
            ['b', 'n', 'r', 'q'].map (fun s => i2xy start ++ i2xy a ++ String.mk [s])
          else [i2xy start ++ i2xy a]) ++
         (if (get_owner g.board a).isSome then []
          else trace_ray g start piece player kal ap rest))
      from rfl] at hmem
    by_cases c1 : get_owner g.board a = some player
    · rw [if_pos c1] at hmem
      exact absurd hmem (List.not_mem_nil _)
    · rw [if_neg c1] at hmem
      by_cases c2 : piece.toLower = 'k' ∧
          (square_attacked (move_piece g.board start a piece) a player false).attacked
      · rw [if_pos c2] at hmem
        exact absurd hmem (List.not_mem_nil _)
      · rw [if_neg c2] at hmem
        by_cases c3 : piece.toLower = 'k' ∧ absDiff a start % 8 = 2 ∧
            (kal ≠ [] ∨
             (get_owner g.board a).isSome ∨
             (get_owner g.board ((start + a) / 2)).isSome ∨
             ¬ g.state.rights.toList.contains (castleRight a) ∨
             ((castleRight a).toLower = 'q' ∧ (get_owner g.board (a - 1)).isSome) ∨
             (square_attacked g.board ((start + a) / 2) player false).attacked)
        · rw [if_pos c3] at hmem
          exact absurd hmem (List.not_mem_nil _)
        · rw [if_neg c3] at hmem
          have hnp : piece.toLower ≠ 'p' := by
            rw [hp]; decide
          rw [if_neg (fun hc => hnp hc.1), if_neg (fun hc => hnp hc.1)] at hmem
          rw [if_neg (fun hc => hc.2.1 hp), if_neg (fun hc => hnp hc.1)] at hmem
          rcases List.mem_append.mp hmem with hin | hin
          · have heq : i2xy start ++ i2xy e = i2xy start ++ i2xy a :=
              List.mem_singleton.mp hin
            have hdata := congrArg String.data heq
            rw [String.data_append, String.data_append] at hdata
            have hda := List.append_cancel_left hdata
            have hea : e = a := i2xy_inj e a he ha64 hda
            subst hea
            have hnd : ¬ (kal ≠ [] ∨
                (get_owner g.board e).isSome ∨
                (get_owner g.board ((start + e) / 2)).isSome ∨
                ¬ g.state.rights.toList.contains (castleRight e) ∨
                ((castleRight e).toLower = 'q' ∧ (get_owner g.board (e - 1)).isSome) ∨
                (square_attacked g.board ((start + e) / 2) player false).attacked) :=
              fun hd => c3 ⟨hp, hdx, hd⟩
            push_neg at hnd
            obtain ⟨hk0, ht, hg, hr, hq, hm⟩ := hnd
            refine ⟨hk0, ?_, ?_, ?_, ?_, ?_⟩
            · exact Option.not_isSome_iff_eq_none.mp ht
            · exact Option.not_isSome_iff_eq_none.mp hg
            · exact hr
            · intro hql
              exact Option.not_isSome_iff_eq_none.mp (hq hql)
            · exact Bool.eq_false_iff.mpr hm
          · by_cases ct : (get_owner g.board a).isSome
            · rw [if_pos ct] at hin
              exact absurd hin (List.not_mem_nil _)
            · rw [if_neg ct] at hin
              exact ih hbrest hin

/-- C5 witness: the kingside castle e1g1 emitted for White in `gameRookK`
satisfies all the castling conditions. -/
theorem trace_ray_castle_only_if_witness :
    [] = ([] : List (Nat × List Nat)) ∧ get_owner gameRookK.board 62 = none ∧
    get_owner gameRookK.board ((60 + 62) / 2) = none ∧
    gameRookK.state.rights.toList.contains (castleRight 62) = true ∧
    ((castleRight 62).toLower = 'q' → get_owner gameRookK.board (62 - 1) = none) ∧
    (square_attacked gameRookK.board ((60 + 62) / 2) "w" false).attacked = false :=
  trace_ray_castle_only_if gameRookK 60 'K' "w" [] [] 62 (by decide) (by decide)
    (by decide) (by decide) [62] (by decide) (by decide)

/-! ## C6: the pin records of `square_attacked` -/

/-- An empty square is never friendly. -/
lemma friendlyTo_space (player : String) : friendlyTo player ' ' = false := by
  simp [friendlyTo]

/-- Attacker symbols are never the empty-square symbol. -/
lemma attackerTypes_ne_space (player : String) (pc : Char)
    (h : pc ∈ attackerTypes player) : pc ≠ ' ' := by
  unfold attackerTypes at h
  by_cases hw : player = "w"
  · rw [if_pos hw] at h
    simp at h
    rcases h with rfl | rfl | rfl | rfl | rfl | rfl <;> decide
  · rw [if_neg hw] at h
    by_cases hb : player = "b"
    · rw [if_pos hb] at h
      simp at h
      rcases h with rfl | rfl | rfl | rfl | rfl | rfl <;> decide
    · rw [if_neg hb] at h
      exact absurd h (List.not_mem_nil pc)

/-- A friendly piece of a real side never equals an attacker symbol of
that side (case encodes colour). -/
lemma friendly_ne_attacker (player : String) (pc c : Char)
    (hpl : player = "w" ∨ player = "b")
    (hpc : pc ∈ attackerTypes player)
    (hf : friendlyTo player c = true) : c ≠ pc := by
  rcases hpl with rfl | rfl
  · have hu : c.isUpper = true := by
      simpa [friendlyTo] using hf
    have hl : pc.isUpper = false := by
      simp [attackerTypes] at hpc
      rcases hpc with rfl | rfl | rfl | rfl | rfl | rfl <;> decide
    intro he
    rw [he, hl] at hu
    exact Bool.noConfusion hu
  · have hu : c.isLower = true := by
      simpa [friendlyTo] using hf
    have hl : pc.isLower = false := by
      simp [attackerTypes] at hpc
      rcases hpc with rfl | rfl | rfl | rfl | rfl | rfl <;> decide
    intro he
    rw [he, hl] at hu
    exact Bool.noConfusion hu

/-- Characterisation of a successful inner pin walk (`scanPin`): the
remaining ray splits into empties, then the attacker, and the returned
prefix is the accumulator extended up to and including the attacker. -/
lemma scanPin_some_iff (b : Board) (pc : Char) (hpc : pc ≠ ' ') :
    ∀ (l acc pre : List Nat),
      scanPin b pc l acc = some pre ↔
        ∃ emp e2 tail, l = emp ++ e2 :: tail ∧
          (∀ x ∈ emp, get_piece b x = ' ') ∧
          get_piece b e2 = pc ∧ pre = acc ++ emp ++ [e2] := by
  intro l
  induction l with
  | nil =>
    intro acc pre
    constructor
    · intro h
      exact absurd h (by simp [scanPin])
    · rintro ⟨emp, e2, tail, hl, -, -, -⟩
      exact absurd hl (by simp)
  | cons c rest ih =>
    intro acc pre
    unfold scanPin
    by_cases h1 : get_piece b c = ' '
    · rw [if_pos h1, ih (acc ++ [c]) pre]
      constructor
      · rintro ⟨emp, e2, tail, hl, hemp, he2, hpre⟩
        refine ⟨c :: emp, e2, tail, by rw [hl]; rfl, ?_, he2, by rw [hpre]; simp⟩
        intro x hx
        rcases List.mem_cons.mp hx with rfl | hx
        · exact h1
        · exact hemp x hx
      · rintro ⟨emp, e2, tail, hl, hemp, he2, hpre⟩
        cases emp with
        | nil =>
          simp only [List.nil_append, List.cons.injEq] at hl
          obtain ⟨rfl, rfl⟩ := hl
          exact absurd (h1.symm.trans he2).symm hpc
        | cons c2 emp2 =>
          simp only [List.cons_append, List.cons.injEq] at hl
          obtain ⟨rfl, hl2⟩ := hl
          refine ⟨emp2, e2, tail, hl2, ?_, he2, by rw [hpre]; simp⟩
          intro x hx
          exact hemp x (List.mem_cons_of_mem _ hx)
    · rw [if_neg h1]
      by_cases h2 : get_piece b c = pc
      · rw [if_pos h2]
        constructor
        · intro h
          injection h with h
          exact ⟨[], c, rest, by simp, by simp, h2, by rw [← h]; simp⟩
        · rintro ⟨emp, e2, tail, hl, hemp, he2, hpre⟩
          cases emp with
          | nil =>
            simp only [List.nil_append, List.cons.injEq] at hl
            obtain ⟨rfl, rfl⟩ := hl
            rw [hpre]
            simp
          | cons c2 emp2 =>
            simp only [List.cons_append, List.cons.injEq] at hl
            obtain ⟨rfl, -⟩ := hl
            exact absurd (hemp c (List.mem_cons_self c emp2)) h1
      · rw [if_neg h2]
        constructor
        · intro h
          exact Option.noConfusion h
        · rintro ⟨emp, e2, tail, hl, hemp, he2, hpre⟩
          cases emp with
          | nil =>
            simp only [List.nil_append, List.cons.injEq] at hl
            obtain ⟨rfl, rfl⟩ := hl
            exact absurd he2 h2
          | cons c2 emp2 =>
            simp only [List.cons_append, List.cons.injEq] at hl
            obtain ⟨rfl, -⟩ := hl
            exact absurd (hemp c (List.mem_cons_self c emp2)) h1

/-- Characterisation of a pin outcome of the outer ray walk (`scanRay`):
empties up to a friendly first occupant, then a successful inner walk. -/
lemma scanRay_pin_iff (b : Board) (pc : Char) (player : String) (hpc : pc ≠ ' ') :
    ∀ (l acc : List Nat) (pidx : Nat) (pre : List Nat),
      scanRay b pc player l acc = .pin pidx pre ↔
        ∃ emp d rest2, l = emp ++ d :: rest2 ∧
          (∀ x ∈ emp, get_piece b x = ' ') ∧
          get_piece b d ≠ pc ∧
          friendlyTo player (get_piece b d) = true ∧
          pidx = d ∧
          scanPin b pc rest2 (acc ++ emp ++ [d]) = some pre := by
  intro l
  induction l with
  | nil =>
    intro acc pidx pre
    constructor
    · intro h
      exact absurd h (by simp [scanRay])
    · rintro ⟨emp, d, rest2, hl, -, -, -, -, -⟩
      exact absurd hl (by simp)
  | cons c rest ih =>
    intro acc pidx pre
    unfold scanRay
    by_cases h1 : get_piece b c = ' '
    · rw [if_pos h1, ih (acc ++ [c]) pidx pre]
      constructor
      · rintro ⟨emp, d, rest2, hl, hemp, hne, hf, hpi, hsp⟩
        refine ⟨c :: emp, d, rest2, by rw [hl]; rfl, ?_, hne, hf, hpi, by
          have : acc ++ (c :: emp) ++ [d] = acc ++ [c] ++ emp ++ [d] := by simp
          rw [this]
          exact hsp⟩
        intro x hx
        rcases List.mem_cons.mp hx with rfl | hx
        · exact h1
        · exact hemp x hx
      · rintro ⟨emp, d, rest2, hl, hemp, hne, hf, hpi, hsp⟩
        cases emp with
        | nil =>
          simp only [List.nil_append, List.cons.injEq] at hl
          obtain ⟨rfl, rfl⟩ := hl
          rw [h1, friendlyTo_space] at hf
          exact Bool.noConfusion hf
        | cons c2 emp2 =>
          simp only [List.cons_append, List.cons.injEq] at hl
          obtain ⟨rfl, hl2⟩ := hl
          refine ⟨emp2, d, rest2, hl2, ?_, hne, hf, hpi, by
            have : acc ++ [c] ++ emp2 ++ [d] = acc ++ (c :: emp2) ++ [d] := by simp
            rw [this]
            exact hsp⟩
          intro x hx
          exact hemp x (List.mem_cons_of_mem _ hx)
    · rw [if_neg h1]
      by_cases h2 : get_piece b c = pc
      · rw [if_pos h2]
        constructor
        · intro h
          exact ScanOut.noConfusion h
        · rintro ⟨emp, d, rest2, hl, hemp, hne, hf, hpi, hsp⟩
          cases emp with
          | nil =>
            simp only [List.nil_append, List.cons.injEq] at hl
            obtain ⟨rfl, rfl⟩ := hl
            exact absurd h2 hne
          | cons c2 emp2 =>
            simp only [List.cons_append, List.cons.injEq] at hl
            obtain ⟨rfl, -⟩ := hl
            exact absurd (hemp c (List.mem_cons_self c emp2)) h1
      · rw [if_neg h2]
        by_cases h3 : friendlyTo player (get_piece b c) = true
        · rw [if_pos h3]
          cases hsc : scanPin b pc rest (acc ++ [c]) with
          | some pre2 =>
            constructor
            · intro h
              injection h with hp1 hp2
              refine ⟨[], c, rest, by simp, by simp, h2, h3, hp1.symm, ?_⟩
              rw [show acc ++ [] ++ [c] = acc ++ [c] by simp, hsc, hp2]
            · rintro ⟨emp, d, rest2, hl, hemp, hne, hf, hpi, hsp⟩
              cases emp with
              | nil =>
                simp only [List.nil_append, List.cons.injEq] at hl
                obtain ⟨rfl, rfl⟩ := hl
                rw [show acc ++ [] ++ [c] = acc ++ [c] by simp] at hsp
                rw [hsc] at hsp
                injection hsp with hsp
                rw [hpi, hsp]
              | cons c2 emp2 =>
                simp only [List.cons_append, List.cons.injEq] at hl
                obtain ⟨rfl, -⟩ := hl
                exact absurd (hemp c (List.mem_cons_self c emp2)) h1
          | none =>
            constructor
            · intro h
              exact ScanOut.noConfusion h
            · rintro ⟨emp, d, rest2, hl, hemp, hne, hf, hpi, hsp⟩
              cases emp with
              | nil =>
                simp only [List.nil_append, List.cons.injEq] at hl
                obtain ⟨rfl, rfl⟩ := hl
                rw [show acc ++ [] ++ [c] = acc ++ [c] by simp] at hsp
                rw [hsc] at hsp
                exact Option.noConfusion hsp
              | cons c2 emp2 =>
                simp only [List.cons_append, List.cons.injEq] at hl
                obtain ⟨rfl, -⟩ := hl
                exact absurd (hemp c (List.mem_cons_self c emp2)) h1
        · rw [if_neg h3]
          constructor
          · intro h
            exact ScanOut.noConfusion h
          · rintro ⟨emp, d, rest2, hl, hemp, hne, hf, hpi, hsp⟩
            cases emp with
            | nil =>
              simp only [List.nil_append, List.cons.injEq] at hl
              obtain ⟨rfl, rfl⟩ := hl
              exact absurd hf h3
            | cons c2 emp2 =>
              simp only [List.cons_append, List.cons.injEq] at hl
              obtain ⟨rfl, -⟩ := hl
              exact absurd (hemp c (List.mem_cons_self c emp2)) h1

/-- With `get_details = true` the accumulation loop of `square_attacked`
collects exactly the pin outcomes of the individual ray scans, in order. -/
lemma saLoop_pins_true (b : Board) (player : String) :
    ∀ (prs : List (Char × List Nat)) (res : SAres),
      (saLoop b player true prs res).pins_info =
        res.pins_info ++ prs.filterMap (fun pr =>
          match scanRay b pr.1 player pr.2 [] with
          | .pin p pre => some (p, pre)
          | _ => none) := by
  intro prs
  induction prs with
  | nil => intro res; simp [saLoop]
  | cons pr rest ih =>
    intro res
    obtain ⟨pc, r⟩ := pr
    unfold saLoop
    cases hsc : scanRay b pc player r [] with
    | atk e pre => simp [hsc, ih, List.filterMap_cons]
    | pin p pre => simp [hsc, ih, List.filterMap_cons]
    | blocked => simp [hsc, ih, List.filterMap_cons]

/-- C6: `square_attacked` with `get_details` records a pin exactly when,
along some ray of `RAYS_FROM_TARGET` for some attacker type, the first
occupied square holds a piece of the defending side and the next occupied
square along the same ray holds an opposing piece of the attacker type
being tested; the recorded pin is that first occupant's index with the ray
prefix up to and including the pinning piece as its allowed destinations —
and no pin is recorded when the second occupant is of any other type. -/
theorem square_attacked_pins_iff (b : Board) (sq : Nat) (player : String)
    (hpl : player = "w" ∨ player = "b") (pidx : Nat) (allowed : List Nat) :
    (pidx, allowed) ∈ (square_attacked b sq player true).pins_info ↔
      ∃ pc ∈ attackerTypes player, ∃ r ∈ targetRays player pc sq,
        ∃ emp d mid e2 tail,
          r = emp ++ d :: (mid ++ e2 :: tail) ∧
          (∀ x ∈ emp, get_piece b x = ' ') ∧
          friendlyTo player (get_piece b d) = true ∧
          (∀ x ∈ mid, get_piece b x = ' ') ∧
          get_piece b e2 = pc ∧
          pidx = d ∧ allowed = emp ++ d :: (mid ++ [e2]) := by
  unfold square_attacked
  rw [saLoop_pins_true]
  rw [show (SAres.mk false [] []).pins_info = [] from rfl, List.nil_append,
    List.mem_filterMap]
  constructor
  · rintro ⟨⟨pc, r⟩, hmem, hf⟩
    rw [List.mem_flatMap] at hmem
    obtain ⟨pc2, hpc2, hmem2⟩ := hmem
    rw [List.mem_map] at hmem2
    obtain ⟨r2, hr2, heq⟩ := hmem2
    cases heq
    have hf2 : (match scanRay b pc player r [] with
      | ScanOut.pin p pre => some (p, pre)
      | _ => none) = some (pidx, allowed) := hf
    have hpcs := attackerTypes_ne_space player pc hpc2
    have hpin : scanRay b pc player r [] = .pin pidx allowed := by
      cases hsc : scanRay b pc player r [] <;> rw [hsc] at hf2
      · exact Option.noConfusion hf2
      · injection hf2 with hf2
        cases hf2
        rfl
      · exact Option.noConfusion hf2
    rw [scanRay_pin_iff b pc player hpcs r [] pidx allowed] at hpin
    obtain ⟨emp, d, rest2, hl, hemp, hne, hfr, hpi, hsp⟩ := hpin
    rw [scanPin_some_iff b pc hpcs rest2 ([] ++ emp ++ [d]) allowed] at hsp
    obtain ⟨mid, e2, tail, hl2, hmid, he2, hpre⟩ := hsp
    refine ⟨pc, hpc2, r, hr2, emp, d, mid, e2, tail, ?_, hemp, hfr, hmid, he2, hpi, ?_⟩
    · rw [hl, hl2]
    · rw [hpre]
      simp
  · rintro ⟨pc, hpc2, r, hr2, emp, d, mid, e2, tail, hl, hemp, hfr, hmid, he2, hpi, hpre⟩
    have hpcs := attackerTypes_ne_space player pc hpc2
    have hpin : scanRay b pc player r [] = .pin pidx allowed := by
      rw [scanRay_pin_iff b pc player hpcs r [] pidx allowed]
      refine ⟨emp, d, mid ++ e2 :: tail, hl, hemp,
        friendly_ne_attacker player pc _ hpl hpc2 hfr, hfr, hpi, ?_⟩
      rw [scanPin_some_iff b pc hpcs (mid ++ e2 :: tail) ([] ++ emp ++ [d]) allowed]
      exact ⟨mid, e2, tail, rfl, hmid, he2, by rw [hpre]; simp⟩
    refine ⟨(pc, r), ?_, ?_⟩
    · rw [List.mem_flatMap]
      refine ⟨pc, hpc2, ?_⟩
      rw [List.mem_map]
      exact ⟨r, hr2, rfl⟩
    · show (match scanRay b pc player r [] with
        | ScanOut.pin p pre => some (p, pre)
        | _ => none) = some (pidx, allowed)
      rw [hpin]


/-- C6 witness: in `gameCheckScan` the black bishop on e5 (square 28) is
recorded as pinned on the e-file ray from the black king, with allowed
destinations up to and including the pinning white rook on e1. -/
theorem square_attacked_pins_iff_witness :
    ∃ pc ∈ attackerTypes "b", ∃ r ∈ targetRays "b" pc 4,
      ∃ emp d mid e2 tail,
        r = emp ++ d :: (mid ++ e2 :: tail) ∧
        (∀ x ∈ emp, get_piece gameCheckScan.board x = ' ') ∧
        friendlyTo "b" (get_piece gameCheckScan.board d) = true ∧
        (∀ x ∈ mid, get_piece gameCheckScan.board x = ' ') ∧
        get_piece gameCheckScan.board e2 = pc ∧
        28 = d ∧ [12, 20, 28, 36, 44, 52, 60] = emp ++ d :: (mid ++ [e2]) :=
  (square_attacked_pins_iff gameCheckScan.board 4 "b" (Or.inr rfl) 28
    [12, 20, 28, 36, 44, 52, 60]).mp (by decide)

/-! ## C7: castling-rights monotonicity -/

/-- Splitting a space-free character list is the identity (one field). -/
lemma splitOnSpace_no_space :
    ∀ l : List Char, ' ' ∉ l → splitOnSpace l = [l] := by
  intro l
  induction l with
  | nil => intro _; rfl
  | cons c rest ih =>
    intro h
    have hc : c ≠ ' ' := fun he => h (he ▸ List.mem_cons_self c rest)
    have hr : ' ' ∉ rest := fun hm => h (List.mem_cons_of_mem c hm)
    unfold splitOnSpace
    rw [if_neg hc, ih hr]
    rfl

/-- Splitting a list with one leading space-free field. -/
lemma splitOnSpace_append_space :
    ∀ (x z : List Char), ' ' ∉ x →
      splitOnSpace (x ++ ' ' :: z) = x :: splitOnSpace z := by
  intro x
  induction x with
  | nil => intro z _; rfl
  | cons c rest ih =>
    intro z h
    have hc : c ≠ ' ' := fun he => h (he ▸ List.mem_cons_self c rest)
    have hr : ' ' ∉ rest := fun hm => h (List.mem_cons_of_mem c hm)
    show splitOnSpace (c :: (rest ++ ' ' :: z)) = (c :: rest) :: splitOnSpace z
    rw [show splitOnSpace (c :: (rest ++ ' ' :: z)) =
        (c :: (splitOnSpace (rest ++ ' ' :: z)).headD []) ::
          (splitOnSpace (rest ++ ' ' :: z)).tail from by
      conv_lhs => rw [splitOnSpace]
      rw [if_neg hc]]
    rw [ih z hr]
    rfl

/-- Splitting the space-joined list of space-free fields recovers them. -/
lemma splitOnSpace_joinSep :
    ∀ parts : List (List Char), parts ≠ [] → (∀ p ∈ parts, ' ' ∉ p) →
      splitOnSpace (joinSep ' ' parts) = parts := by
  intro parts
  induction parts with
  | nil => intro h; exact absurd rfl h
  | cons x rest ih =>
    intro _ hsp
    cases rest with
    | nil =>
      show splitOnSpace x = [x]
      exact splitOnSpace_no_space x (hsp x (List.mem_cons_self x []))
    | cons y rest2 =>
      show splitOnSpace (x ++ ' ' :: joinSep ' ' (y :: rest2)) = x :: y :: rest2
      rw [splitOnSpace_append_space x _ (hsp x (List.mem_cons_self x _))]
      rw [ih (by simp) (fun p hp => hsp p (List.mem_cons_of_mem x hp))]

/-- Digit characters are below the space threshold. -/
lemma digitChar_ne_space : ∀ d : Nat, d ≤ 9 → Char.ofNat (48 + d) ≠ ' ' := by
  decide

/-- Digit characters round-trip through `toNat`. -/
lemma digitChar_toNat : ∀ d : Nat, d ≤ 9 → (Char.ofNat (48 + d)).toNat = 48 + d := by
  decide

/-- Digit characters are decimal digits. -/
lemma digitChar_isDigit : ∀ d : Nat, d ≤ 9 →
    '0' ≤ Char.ofNat (48 + d) ∧ Char.ofNat (48 + d) ≤ '9' := by
  decide

/-- The run-length rank encoder emits no spaces when the pending count
plus the rank length stays in digit range. -/
lemma encRank_no_space :
    ∀ (l : List Char) (p : Nat), p + l.length ≤ 9 → ' ' ∉ encRank p l := by
  intro l
  induction l with
  | nil =>
    intro p hp
    unfold encRank
    by_cases h0 : p = 0
    · rw [if_pos h0]
      exact List.not_mem_nil ' '
    · rw [if_neg h0]
      intro hm
      rcases List.mem_singleton.mp hm with hm
      exact digitChar_ne_space p (by simpa using hp) hm.symm
  | cons c rest ih =>
    intro p hp
    unfold encRank
    by_cases hc : c = ' '
    · rw [if_pos hc]
      exact ih (p + 1) (by simp at hp ⊢; omega)
    · rw [if_neg hc]
      by_cases h0 : p = 0
      · rw [if_pos h0]
        intro hm
        rcases List.mem_cons.mp hm with he | hm
        · exact hc he.symm
        · exact ih 0 (by simp at hp ⊢; omega) hm
      · rw [if_neg h0]
        intro hm
        rcases List.mem_cons.mp hm with he | hm
        · exact digitChar_ne_space p (by simp at hp; omega) he.symm
        · rcases List.mem_cons.mp hm with he | hm
          · exact hc he.symm
          · exact ih 0 (by simp at hp ⊢; omega) hm

/-- Every rank chunk of the board serialisation is space-free. -/
lemma boardRanks_no_space :
    ∀ (n : Nat) (cells : List Char), ∀ x ∈ boardRanks n cells, ' ' ∉ x := by
  intro n
  induction n with
  | zero => intro cells x hx; exact absurd hx (List.not_mem_nil x)
  | succ m ih =>
    intro cells x hx
    rcases List.mem_cons.mp hx with rfl | hx
    · exact encRank_no_space (cells.take 8) 0
        (by simpa using List.length_take_le 8 cells)
    · exact ih (cells.drop 8) x hx

/-- Joining space-free chunks with a non-space separator is space-free. -/
lemma joinSep_no_space (sep : Char) (hsep : sep ≠ ' ') :
    ∀ chunks : List (List Char), (∀ ch ∈ chunks, ' ' ∉ ch) →
      ' ' ∉ joinSep sep chunks := by
  intro chunks
  induction chunks with
  | nil => intro _; exact List.not_mem_nil ' '
  | cons x rest ih =>
    intro h
    cases rest with
    | nil => exact h x (List.mem_cons_self x [])
    | cons y rest2 =>
      show ' ' ∉ x ++ sep :: joinSep sep (y :: rest2)
      intro hm
      rcases List.mem_append.mp hm with hm | hm
      · exact h x (List.mem_cons_self x _) hm
      · rcases List.mem_cons.mp hm with he | hm
        · exact hsep he.symm
        · exact ih (fun ch hch => h ch (List.mem_cons_of_mem x hch)) hm

/-- The board serialisation contains no spaces. -/
lemma boardFenChars_no_space (b : Board) : ' ' ∉ boardFenChars b :=
  joinSep_no_space '/' (by decide) _ (boardRanks_no_space 8 b)

/-- Decimal digit lists contain no spaces. -/
lemma natDigitsAux_no_space : ∀ (f n : Nat), ' ' ∉ natDigitsAux f n := by
  intro f
  induction f with
  | zero => intro n; exact List.not_mem_nil ' '
  | succ m ih =>
    intro n
    unfold natDigitsAux
    by_cases h : n < 10
    · rw [if_pos h]
      intro hm
      exact digitChar_ne_space n (by omega) (List.mem_singleton.mp hm).symm
    · rw [if_neg h]
      intro hm
      rcases List.mem_append.mp hm with hm | hm
      · exact ih (n / 10) hm
      · exact digitChar_ne_space (n % 10) (by omega) (List.mem_singleton.mp hm).symm

/-- Integer serialisations contain no spaces. -/
lemma intChars_no_space (i : Int) : ' ' ∉ intChars i := by
  unfold intChars
  by_cases h : i < 0
  · rw [if_pos h]
    intro hm
    rcases List.mem_cons.mp hm with he | hm
    · exact absurd he.symm (by decide)
    · exact natDigitsAux_no_space _ _ hm
  · rw [if_neg h]
    exact natDigitsAux_no_space _ _

/-- File letters are never the space character. -/
lemma fileChar_ne_space : ∀ n : Nat, fileChar n ≠ ' ' := by
  intro n
  unfold fileChar
  split <;> decide

/-- Rank digits are never the space character. -/
lemma rankChar_ne_space : ∀ n : Nat, rankChar n ≠ ' ' := by
  intro n
  unfold rankChar
  split <;> decide

/-- The en-passant field contains no spaces. -/
lemma epField_no_space (start stop : Nat) (piece : Char) :
    ' ' ∉ (epField start stop piece).toList := by
  unfold epField
  split
  · intro hm
    unfold i2xy at hm
    rcases List.mem_cons.mp hm with he | hm
    · exact fileChar_ne_space _ he.symm
    · rcases List.mem_cons.mp hm with he | hm
      · exact rankChar_ne_space _ he.symm
      · exact List.not_mem_nil ' ' hm
  · decide

/-- The surviving-rights field is space-free when the old rights are. -/
lemma rightsField_no_space (g : Game) (start stop : Nat)
    (hsp : ' ' ∉ g.state.rights.toList) : ' ' ∉ rightsField g start stop := by
  unfold rightsField
  split
  · decide
  · intro hm
    exact hsp (List.mem_of_mem_filter hm)

/-- The player toggle yields only the two side strings. -/
lemma playerToggle_some (p np : String) (h : playerToggle p = some np) :
    np = "b" ∨ np = "w" := by
  unfold playerToggle at h
  split at h
  · injection h with h
    exact Or.inl h.symm
  · split at h
    · injection h with h
      exact Or.inr h.symm
    · exact Option.noConfusion h

/-- Digit-fold over a character list. -/
def digitsFold (l : List Char) (acc : Nat) : Nat :=
  l.foldl (fun a c => a * 10 + (c.toNat - 48)) acc

/-- The digit list of `n` folds back to `n`. -/
lemma digitsFold_natDigitsAux :
    ∀ (f n : Nat), n < f → digitsFold (natDigitsAux f n) 0 = n := by
  intro f
  induction f with
  | zero => intro n h; exact absurd h (by omega)
  | succ m ih =>
    intro n h
    unfold natDigitsAux
    by_cases h10 : n < 10
    · rw [if_pos h10]
      show digitsFold [Char.ofNat (48 + n)] 0 = n
      unfold digitsFold
      simp [digitChar_toNat n (by omega)]
    · rw [if_neg h10]
      unfold digitsFold
      rw [List.foldl_append]
      have hd : n / 10 < m := by omega
      have := ih (n / 10) hd
      unfold digitsFold at this
      rw [this]
      simp [digitChar_toNat (n % 10) (by omega)]
      omega

/-- Every character produced by the digit printer is a decimal digit. -/
lemma natDigitsAux_digits :
    ∀ (f n : Nat), ∀ c ∈ natDigitsAux f n, '0' ≤ c ∧ c ≤ '9' := by
  intro f
  induction f with
  | zero => intro n c hc; exact absurd hc (List.not_mem_nil c)
  | succ m ih =>
    intro n c hc
    unfold natDigitsAux at hc
    by_cases h : n < 10
    · rw [if_pos h] at hc
      rw [List.mem_singleton.mp hc]
      exact digitChar_isDigit n (by omega)
    · rw [if_neg h] at hc
      rcases List.mem_append.mp hc with hm | hm
      · exact ih (n / 10) c hm
      · rw [List.mem_singleton.mp hm]
        exact digitChar_isDigit (n % 10) (by omega)

/-- The digit printer never returns the empty list. -/
lemma natDigitsAux_ne_nil (n : Nat) : natDigitsAux (n + 1) n ≠ [] := by
  unfold natDigitsAux
  by_cases h : n < 10
  · rw [if_pos h]
    exact List.cons_ne_nil _ _
  · rw [if_neg h]
    simp

/-- `parseNat` succeeds on any non-empty all-digit list, computing the
digit fold. -/
lemma parseNat_digits :
    ∀ l : List Char, l ≠ [] → (∀ c ∈ l, '0' ≤ c ∧ c ≤ '9') →
      parseNat l = some (digitsFold l 0) := by
  have key : ∀ (l : List Char) (k : Nat), (∀ c ∈ l, '0' ≤ c ∧ c ≤ '9') →
      l.foldl (fun acc c =>
        match acc with
        | none => none
        | some n => if '0' ≤ c ∧ c ≤ '9' then some (n * 10 + (c.toNat - 48)) else none)
        (some k) = some (digitsFold l k) := by
    intro l
    induction l with
    | nil => intro k _; rfl
    | cons c rest ih =>
      intro k h
      have hc := h c (List.mem_cons_self c rest)
      show List.foldl _ (if '0' ≤ c ∧ c ≤ '9' then some (k * 10 + (c.toNat - 48)) else none) rest = _
      rw [if_pos hc]
      rw [ih _ (fun x hx => h x (List.mem_cons_of_mem c hx))]
      rfl
  intro l hne h
  cases l with
  | nil => exact absurd rfl hne
  | cons c rest =>
    show List.foldl _ (some 0) (c :: rest) = _
    exact key (c :: rest) 0 h

/-- `parseNat` inverts the digit printer. -/
lemma parseNat_natDigits (n : Nat) : parseNat (natDigits n) = some n := by
  unfold natDigits
  rw [parseNat_digits _ (natDigitsAux_ne_nil n) (natDigitsAux_digits (n + 1) n)]
  rw [digitsFold_natDigitsAux (n + 1) n (by omega)]

/-- The head of the digit printer is a digit, hence not a sign. -/
lemma natDigits_head_digit (n : Nat) :
    ∀ c rest, natDigits n = c :: rest → c ≠ '-' ∧ c ≠ '+' := by
  intro c rest h
  have hc : c ∈ natDigits n := by rw [h]; exact List.mem_cons_self c rest
  have := natDigitsAux_digits (n + 1) n c hc
  constructor <;> (intro he; rw [he] at this; exact absurd this (by decide))

/-- `parseInt` inverts the integer printer. -/
lemma parseInt_intChars (i : Int) : parseInt (intChars i) = some i := by
  unfold intChars
  by_cases h : i < 0
  · rw [if_pos h]
    show (parseNat (natDigits i.natAbs)).map (fun n => -(n : Int)) = some i
    rw [parseNat_natDigits]
    simp
    rw [abs_of_neg h, neg_neg]
  · rw [if_neg h]
    cases hd : natDigits i.natAbs with
    | nil => exact absurd hd (natDigitsAux_ne_nil i.natAbs)
    | cons c rest =>
      obtain ⟨h1, h2⟩ := natDigits_head_digit i.natAbs c rest hd
      have hp : parseNat (c :: rest) = some i.natAbs := by
        rw [← hd]
        exact parseNat_natDigits i.natAbs
      unfold parseInt
      split
      · rename_i heq
        injection heq with heq
        exact absurd heq h1
      · rename_i heq
        injection heq with heq
        exact absurd heq h2
      · rw [hp]
        simp
        exact not_lt.mp h


/-- A successful `set_fen` in terms of its six split fields. -/
lemma set_fen_fields (fen : String) (gm : Game) (f0 f1 f2 f3 f4 f5 : List Char)
    (hsplit : splitOnSpace fen.toList = [f0, f1, f2, f3, f4, f5])
    (ply turn : Int)
    (h4 : parseInt f4 = some ply) (h5 : parseInt f5 = some turn) :
    set_fen fen gm = some
      { board := set_position (String.mk f0),
        state := ⟨String.mk f1, String.mk f2, String.mk f3, ply, turn⟩,
        move_history := gm.move_history,
        fen_history := gm.fen_history ++ [fen],
        moves := none,
        positions_count := bumpCount gm.positions_count (String.mk f0) } := by
  unfold set_fen
  rw [hsplit]
  have key : ∀ (o4 o5 : Option Int), o4 = some ply → o5 = some turn →
      (match o4, o5 with
        | some p, some t =>
          some { board := set_position (String.mk f0),
                 state := ⟨String.mk f1, String.mk f2, String.mk f3, p, t⟩,
                 move_history := gm.move_history,
                 fen_history := gm.fen_history ++ [fen],
                 moves := none,
                 positions_count := bumpCount gm.positions_count (String.mk f0) }
        | _, _ => (none : Option Game)) =
      some { board := set_position (String.mk f0),
             state := ⟨String.mk f1, String.mk f2, String.mk f3, ply, turn⟩,
             move_history := gm.move_history,
             fen_history := gm.fen_history ++ [fen],
             moves := none,
             positions_count := bumpCount gm.positions_count (String.mk f0) } := by
    rintro _ _ rfl rfl
    rfl
  exact key (parseInt f4) (parseInt f5) h4 h5

/-- The six space-free fields of the FEN rebuilt by `apply_move`. -/
lemma applyFenString_split (np : String) (move : String) (start stop : Nat)
    (piece target : Char) (g : Game)
    (hnp : ' ' ∉ np.toList) (hsp : ' ' ∉ g.state.rights.toList) :
    splitOnSpace (applyFenString np move start stop piece target g).toList =
      [boardFenChars (applyBoard move start stop piece g), np.toList,
       rightsField g start stop, (epField start stop piece).toList,
       intChars (plyField g piece target), intChars (turnField g)] := by
  rw [show (applyFenString np move start stop piece target g).toList =
      joinSep ' ' [boardFenChars (applyBoard move start stop piece g), np.toList,
        rightsField g start stop, (epField start stop piece).toList,
        intChars (plyField g piece target), intChars (turnField g)] from rfl]
  apply splitOnSpace_joinSep
  · simp
  · intro p hp
    simp only [List.mem_cons, List.not_mem_nil, or_false] at hp
    rcases hp with rfl | rfl | rfl | rfl | rfl | rfl
    · exact boardFenChars_no_space _
    · exact hnp
    · exact rightsField_no_space g start stop hsp
    · exact epField_no_space start stop piece
    · exact intChars_no_space _
    · exact intChars_no_space _

/-- The rights string of the state produced by a successful `applyCore`. -/
lemma applyCore_ok_rights (move : String) (start stop : Nat) (piece target : Char)
    (g g' : Game) (hsp : ' ' ∉ g.state.rights.toList)
    (h : applyCore move start stop piece target g = .ok g') :
    g'.state.rights = String.mk (rightsField g start stop) := by
  obtain ⟨np, g4, hp, hsf, hg⟩ := applyCore_ok_shape _ _ _ _ _ _ _ h
  have hnp : ' ' ∉ np.toList := by
    rcases playerToggle_some _ _ hp with rfl | rfl <;> decide
  rw [set_fen_fields (applyFenString np move start stop piece target g)
    (applyMutations move start stop piece g) _ _ _ _ _ _
    (applyFenString_split np move start stop piece target g hnp hsp)
    (plyField g piece target) (turnField g)
    (parseInt_intChars _) (parseInt_intChars _)] at hsf
  injection hsf with hsf
  rw [hg, ← hsf]

/-- `rightsField` depends only on the state. -/
lemma rightsField_congr (g1 g : Game) (start stop : Nat)
    (hseq : g1.state = g.state) :
    rightsField g1 start stop = rightsField g start stop := by
  unfold rightsField newRightsChars
  rw [hseq]

/-- The rights string after any successful `apply_move`. -/
lemma apply_move_ok_rights (mvArg : Option String) (v : Bool) (g g' : Game)
    (hsp : ' ' ∉ g.state.rights.toList)
    (h : apply_move mvArg v g = .ok g') :
    ∃ start stop, g'.state.rights = String.mk (rightsField g start stop) := by
  cases mvArg with
  | none =>
    exact Except.noConfusion
      (show Except.error (ApplyErr.invalidMove, g) = Except.ok g' from h)
  | some mv =>
    rw [show apply_move (some mv) v g =
      (if mv = "" ∨ mv.length < 4 then .error (.invalidMove, g)
       else if v then
         match get_moves g none [moveStart mv] with
         | none => .error (.pyError, g)
         | some (l, g1) =>
           if ¬ l.contains (strLower mv) then .error (.invalidMove, g1)
           else applyCore (strLower mv) (moveStart mv) (moveStop mv)
                  (get_piece g.board (moveStart mv)) (get_piece g.board (moveStop mv)) g1
       else applyCore (strLower mv) (moveStart mv) (moveStop mv)
              (get_piece g.board (moveStart mv)) (get_piece g.board (moveStop mv)) g)
      from rfl] at h
    split at h
    · exact Except.noConfusion h
    · split at h
      · split at h
        · exact Except.noConfusion h
        · rename_i l g1 heq
          split at h
          · exact Except.noConfusion h
          · have hfr := get_moves_frame _ _ _ _ _ heq
            have hsp1 : ' ' ∉ g1.state.rights.toList := by
              rw [hfr.2.1]
              exact hsp
            have hr := applyCore_ok_rights _ _ _ _ _ _ _ hsp1 h
            rw [rightsField_congr g1 g _ _ hfr.2.1] at hr
            exact ⟨moveStart mv, moveStop mv, hr⟩
      · exact ⟨moveStart mv, moveStop mv, applyCore_ok_rights _ _ _ _ _ _ _ hsp h⟩

/-- The surviving-rights field keeps only a subsequence of the previous
castling-right characters and stays space-free. -/
lemma rightsField_step (g : Game) (start stop : Nat)
    (hsp : ' ' ∉ g.state.rights.toList) :
    List.Sublist ((rightsField g start stop).filter (fun c => "KQkq".toList.contains c))
      (g.state.rights.toList.filter (fun c => "KQkq".toList.contains c)) ∧
    ' ' ∉ rightsField g start stop := by
  refine ⟨?_, rightsField_no_space g start stop hsp⟩
  unfold rightsField
  split
  · rw [show (['-'].filter (fun c => "KQkq".toList.contains c)) = [] from rfl]
    exact List.nil_sublist _
  · exact List.Sublist.filter _ (List.filter_sublist _)

/-- C7 (amended): over any successfully applied move sequence, the set of
castling-right characters never grows: the final rights string restricted
to `KQkq` characters is a subsequence of the initial one so restricted,
and a right absent initially never appears later.  (The full rights string
is a subsequence of its predecessor at every step except when the last
right disappears, where the string becomes the `-` placeholder, which is
not a subsequence of a non-empty rights string — see the counterexample.) -/
theorem castling_rights_monotone :
    ∀ (ms : List (Option String × Bool)) (g g' : Game),
      ' ' ∉ g.state.rights.toList →
      applyMoves ms g = some g' →
      List.Sublist
        (g'.state.rights.toList.filter (fun c => "KQkq".toList.contains c))
        (g.state.rights.toList.filter (fun c => "KQkq".toList.contains c)) ∧
      (∀ c, "KQkq".toList.contains c = true →
        c ∈ g'.state.rights.toList → c ∈ g.state.rights.toList) := by
  intro ms
  induction ms with
  | nil =>
    intro g g' _ h
    have h' : some g = some g' := h
    injection h' with h'
    subst h'
    exact ⟨List.Sublist.refl _, fun _ _ hm => hm⟩
  | cons mvv rest ih =>
    intro g g' hsp h
    obtain ⟨mv, v⟩ := mvv
    have h2 : (match apply_move mv v g with
      | Except.ok g1 => applyMoves rest g1
      | Except.error _ => none) = some g' := h
    cases ha : apply_move mv v g with
    | error e =>
      rw [ha] at h2
      exact Option.noConfusion h2
    | ok g1 =>
      rw [ha] at h2
      obtain ⟨start, stop, hr⟩ := apply_move_ok_rights mv v g g1 hsp ha
      obtain ⟨hsub1, hsp1⟩ := rightsField_step g start stop hsp
      have hre : g1.state.rights.toList = rightsField g start stop := by
        rw [hr]
        rfl
      have hsp1' : ' ' ∉ g1.state.rights.toList := by
        rw [hre]
        exact hsp1
      obtain ⟨hsub2, hmem2⟩ := ih g1 g' hsp1' h2
      rw [hre] at hsub2
      constructor
      · exact hsub2.trans hsub1
      · intro c hc hcm
        have h3 := hmem2 c hc hcm
        rw [hre] at h3
        have h4 : c ∈ (rightsField g start stop).filter
            (fun c => "KQkq".toList.contains c) :=
          List.mem_filter.mpr ⟨h3, hc⟩
        have h5 := hsub1.subset h4
        exact (List.mem_filter.mp h5).1

/-- C7 counterexample: the rook lift h1h2 from `gameRookK` voids White's
last castling right, and the resulting rights string `-` is not a
subsequence of the previous rights string `K`. -/
theorem castling_rights_subsequence_refuted :
    gameRookK.state.rights = "K" ∧
    applyMoves [(some "h1h2", false)] gameRookK = some afterRookLift ∧
    afterRookLift.state.rights = "-" ∧
    ¬ List.Sublist (afterRookLift.state.rights.toList)
      (gameRookK.state.rights.toList) := by
  refine ⟨by decide, by decide, by decide, ?_⟩
  intro hsub
  have := hsub.subset (show '-' ∈ afterRookLift.state.rights.toList by decide)
  revert this
  decide

/-- C7 witness: the monotonicity theorem applied to the concrete rook
lift, where the castling-right characters shrink from `K` to none. -/
theorem castling_rights_monotone_witness :
    List.Sublist
      (afterRookLift.state.rights.toList.filter (fun c => "KQkq".toList.contains c))
      (gameRookK.state.rights.toList.filter (fun c => "KQkq".toList.contains c)) ∧
    (∀ c, "KQkq".toList.contains c = true →
      c ∈ afterRookLift.state.rights.toList → c ∈ gameRookK.state.rights.toList) :=
  castling_rights_monotone [(some "h1h2", false)] gameRookK afterRookLift
    (by decide) (by decide)


/-- C10 witness: the frame property at the starting position. -/
theorem get_moves_preserves_board_and_state_witness :
    cachedStart.board = startGame.board ∧ cachedStart.state = startGame.state ∧
    cachedStart.move_history = startGame.move_history ∧
    cachedStart.fen_history = startGame.fen_history ∧
    cachedStart.positions_count = startGame.positions_count :=
  get_moves_preserves_board_and_state startGame none (List.range 64)
    (((get_moves startGame none (List.range 64)).getD ([], emptyGame)).1)
    cachedStart (by decide)

end Chessir
